import Mathlib

/-!
# Signalling relay: `server/server.js`

A shallow embedding of the room coordination logic of `server/server.js`
(the `join`, `offer`, `answer`, `ice_candidate` and `disconnect` handlers
registered on every socket), followed by theorems about it.

Modelling decisions, all visible in the definitions below:

* `rooms` is the ECMAScript `Map` of line 11.  Its `[[MapData]]` is a list of
  records in insertion order; `Map.prototype.delete` empties a record instead
  of unlinking it, and `Map.prototype.forEach` walks the list by index.  The
  model keeps exactly that list (`none` is an emptied record), so that
  deleting a room while `forEach` is running is modelled and not assumed.
* The value of a room is a `Set` of socket ids.  It is never iterated, only
  `has`, `add`, `delete` and `size` are used, so it is a `Finset`.
* The transport (socket.io, in-memory adapter) is modelled by what the
  handlers use of it: the connected sockets, the room subscriptions made by
  `socket.join`, and the four ways of emitting.  A socket is unsubscribed from
  every room and removed from the connected sockets before its `disconnect`
  handler runs.  The transport keeps every connected socket in the room named
  after the socket's own id: `subs` records the subscriptions made by
  `socket.join` only, and `inRoom` adds the socket a room is named after.
* Values travelling in payloads are primitives (`JsVal`); objects and arrays
  used as a room id or as a property value are left out.
* An exception thrown by a handler is a result (`Except`), not a state.
-/

namespace WalkieTalkie

/-- Primitive JavaScript values. -/
inductive JsVal
  | undefined
  | null
  | bool (b : Bool)
  | num (n : Int)
  | str (s : String)
  deriving DecidableEq, Repr

/-- The value of `socket.id`. -/
abbrev SocketId := String

/-- The argument of `join`, the `roomId` property of a relay payload: a key of
the `rooms` map and the name of a transport room. -/
abbrev RoomId := JsVal

/-- A payload: a primitive, or an object with primitive properties. -/
inductive Data
  | val (v : JsVal)
  | obj (fields : List (String × JsVal))
  deriving DecidableEq, Repr

/-- Exceptions a handler can throw. -/
inductive JsError
  | typeError
  deriving DecidableEq, Repr

/-- Property read `data.name`: a `TypeError` on `undefined` and `null`,
`undefined` on any other primitive and on an object lacking the property. -/
def Data.prop : Data → String → Except JsError JsVal
  | .val .undefined, _ => .error .typeError
  | .val .null, _ => .error .typeError
  | .val _, _ => .ok .undefined
  | .obj fields, name => .ok ((fields.lookup name).getD .undefined)

/-- The members of a room: a `Set` of socket ids. -/
abbrev Clients := Finset SocketId

/-- The `[[MapData]]` of `rooms`: records in insertion order, `none` for a
record emptied by `delete`. -/
abbrev MapData := List (Option (RoomId × Clients))

/-- `rooms.get(key)`: the value of the first record with that key. -/
def MapData.get : MapData → RoomId → Option Clients
  | [], _ => none
  | none :: es, key => MapData.get es key
  | some (k, v) :: es, key => if k = key then some v else MapData.get es key

/-- `rooms.has(key)`. -/
def MapData.has (m : MapData) (key : RoomId) : Bool :=
  (MapData.get m key).isSome

/-- `rooms.set(key, value)`: overwrite the value of the first record with that
key, or append a new record. -/
def MapData.set : MapData → RoomId → Clients → MapData
  | [], key, value => [some (key, value)]
  | none :: es, key, value => none :: MapData.set es key value
  | some (k, v) :: es, key, value =>
    if k = key then some (k, value) :: es else some (k, v) :: MapData.set es key value

/-- `rooms.delete(key)`: empty the first record with that key. -/
def MapData.delete : MapData → RoomId → MapData
  | [], _ => []
  | none :: es, key => none :: MapData.delete es key
  | some (k, v) :: es, key =>
    if k = key then none :: es else some (k, v) :: MapData.delete es key

/-- How an emission is addressed. -/
inductive Target
  | socket (id : SocketId)
  | room (roomId : RoomId)
  | roomExcept (roomId : RoomId) (sender : SocketId)
  | all
  deriving DecidableEq, Repr

/-- One emission: how the code addressed it, the sockets the transport hands
it to, the event name and the payload. -/
structure Delivery where
  target : Target
  recipients : Finset SocketId
  event : String
  payload : Data

instance : DecidableEq Delivery := fun a b =>
  decidable_of_iff
    (a.target = b.target ∧ a.recipients = b.recipients ∧ a.event = b.event ∧ a.payload = b.payload)
    (by cases a; cases b; simp)

/-- The state of the server: the `rooms` map and the transport's records. -/
structure State where
  rooms : MapData
  sockets : Finset SocketId
  subs : Finset (RoomId × SocketId)

instance : DecidableEq State := fun a b =>
  decidable_of_iff (a.rooms = b.rooms ∧ a.sockets = b.sockets ∧ a.subs = b.subs)
    (by cases a; cases b; simp)

/-- The state at start-up: `new Map()`, nobody connected. -/
def State.init : State := ⟨[], ∅, ∅⟩

/-- The member set recorded for a room in `rooms`, empty when absent. -/
def State.members (s : State) (roomId : RoomId) : Clients :=
  (MapData.get s.rooms roomId).getD ∅

/-- The connected sockets that `socket.join` subscribed to a transport room;
the room the transport names after each socket's own id is left aside. -/
def joinedRoom (s : State) (roomId : RoomId) : Finset SocketId :=
  s.sockets.filter (fun q => (roomId, q) ∈ s.subs)

/-- The connected socket whose id is the room id, if there is one: the
transport keeps every socket in the room named after its own id. -/
def ownRoom (s : State) (roomId : RoomId) : Finset SocketId :=
  s.sockets.filter (fun q => roomId = JsVal.str q)

/-- The connected sockets in a transport room, which `io.to(roomId)` and
`socket.to(roomId)` address: those that `socket.join` subscribed to it, and
the socket whose own id is the room id. -/
def inRoom (s : State) (roomId : RoomId) : Finset SocketId :=
  s.sockets.filter (fun q => (roomId, q) ∈ s.subs ∨ roomId = JsVal.str q)

/-- `socket.join(roomId)`. -/
def socketJoin (s : State) (p : SocketId) (roomId : RoomId) : State :=
  { s with subs := insert (roomId, p) s.subs }

/-- `socket.emit(event, payload)`. -/
def socketEmit (p : SocketId) (event : String) (payload : Data) : Delivery :=
  ⟨.socket p, {p}, event, payload⟩

/-- `io.to(roomId).emit(event, payload)`. -/
def ioToEmit (s : State) (roomId : RoomId) (event : String) (payload : Data) : Delivery :=
  ⟨.room roomId, inRoom s roomId, event, payload⟩

/-- `socket.to(roomId).emit(event, payload)`. -/
def socketToEmit (s : State) (p : SocketId) (roomId : RoomId) (event : String)
    (payload : Data) : Delivery :=
  ⟨.roomExcept roomId p, (inRoom s roomId).erase p, event, payload⟩

/-- `io.emit(event, payload)`. -/
def ioEmit (s : State) (event : String) (payload : Data) : Delivery :=
  ⟨.all, s.sockets, event, payload⟩

/-- Line 12. -/
def MAX_ROOM_SIZE : Nat := 2

/-- The object `{ roomId }`. -/
def roomRef (roomId : RoomId) : Data :=
  .obj [("roomId", roomId)]

/-- The object `{ size, isRoomFull }`. -/
def roomStatus (size : Nat) (isRoomFull : Bool) : Data :=
  .obj [("size", .num size), ("isRoomFull", .bool isRoomFull)]

/-- The `join` handler, lines 17-42.  `rooms.get(roomId)` is read only where
`rooms.has(roomId)` holds, so the `getD` defaults are never taken;
`rooms.get(roomId).add(socket.id)` changes the set held by the record of
`roomId`. -/
def onJoin (s : State) (p : SocketId) (roomId : RoomId) : State × List Delivery :=
  if MapData.has s.rooms roomId
      && decide (((MapData.get s.rooms roomId).getD ∅).card ≥ MAX_ROOM_SIZE) then
    (s, [socketEmit p "room_full" (roomRef roomId)])
  else
    let rooms1 := if !MapData.has s.rooms roomId then MapData.set s.rooms roomId ∅ else s.rooms
    let rooms2 := MapData.set rooms1 roomId (insert p ((MapData.get rooms1 roomId).getD ∅))
    let s2 := socketJoin { s with rooms := rooms2 } p roomId
    let roomSize := ((MapData.get rooms2 roomId).getD ∅).card
    let status := ioToEmit s2 roomId "room_status"
      (roomStatus roomSize (decide (roomSize ≥ MAX_ROOM_SIZE)))
    if roomSize ≥ MAX_ROOM_SIZE then
      (s2, [status, ioEmit s2 "room_closed" (roomRef roomId)])
    else
      (s2, [status])

/-- The `offer` handler, lines 44-49. -/
def onOffer (s : State) (p : SocketId) (data : Data) : Except JsError (State × List Delivery) := do
  let roomId ← data.prop "roomId"
  let sdp ← data.prop "sdp"
  let type ← data.prop "type"
  pure (s, [socketToEmit s p roomId "offer" (.obj [("sdp", sdp), ("type", type)])])

/-- The `answer` handler, lines 51-56. -/
def onAnswer (s : State) (p : SocketId) (data : Data) : Except JsError (State × List Delivery) := do
  let roomId ← data.prop "roomId"
  let sdp ← data.prop "sdp"
  let type ← data.prop "type"
  pure (s, [socketToEmit s p roomId "answer" (.obj [("sdp", sdp), ("type", type)])])

/-- The `ice_candidate` handler, lines 58-60. -/
def onIceCandidate (s : State) (p : SocketId) (data : Data) :
    Except JsError (State × List Delivery) := do
  let roomId ← data.prop "roomId"
  let candidate ← data.prop "candidate"
  pure (s, [socketToEmit s p roomId "ice_candidate" (.val candidate)])

/-- The callback of `rooms.forEach`, lines 64-77, called on the record at
`index`, whose key is `roomId` and whose value is the set `clients`.
`clients.delete` changes the set held by that record. -/
def disconnectCallback (s : State) (p : SocketId) (index : Nat) (roomId : RoomId)
    (clients : Clients) : State × List Delivery :=
  if p ∈ clients then
    let clients1 := clients.erase p
    let rooms1 := List.set s.rooms index (some (roomId, clients1))
    if clients1.card = 0 then
      let s2 := { s with rooms := MapData.delete rooms1 roomId }
      (s2, [ioEmit s2 "room_available" (roomRef roomId)])
    else
      let s1 := { s with rooms := rooms1 }
      (s1, [ioToEmit s1 roomId "room_status"
        (roomStatus clients1.card (decide (clients1.card ≥ MAX_ROOM_SIZE)))])
  else
    (s, [])

/-- The loop of `Map.prototype.forEach` from record `index` on: emptied records
are skipped, the walk ends past the last record.  `fuel` bounds the number of
records visited. -/
def forEachFrom (p : SocketId) : Nat → Nat → State → List Delivery → State × List Delivery
  | 0, _, s, out => (s, out)
  | fuel + 1, index, s, out =>
    match s.rooms.get? index with
    | none => (s, out)
    | some none => forEachFrom p fuel (index + 1) s out
    | some (some (roomId, clients)) =>
      let r := disconnectCallback s p index roomId clients
      forEachFrom p fuel (index + 1) r.1 (out ++ r.2)

/-- The `disconnect` handler, lines 62-78.  The callback appends no record, so
the number of records bounds the walk. -/
def onDisconnect (s : State) (p : SocketId) : State × List Delivery :=
  forEachFrom p s.rooms.length 0 s []

/-- What the transport does when a socket closes, before the `disconnect`
handler runs: the socket leaves every room and is no longer connected. -/
def leaveAll (s : State) (p : SocketId) : State :=
  { s with sockets := s.sockets.erase p, subs := s.subs.filter (fun x => x.2 ≠ p) }

/-- The events the transport hands to the server. -/
inductive Event
  | connection (p : SocketId)
  | join (p : SocketId) (roomId : RoomId)
  | offer (p : SocketId) (data : Data)
  | answer (p : SocketId) (data : Data)
  | ice_candidate (p : SocketId) (data : Data)
  | disconnect (p : SocketId)
  deriving DecidableEq, Repr

/-- Handling one event. -/
def handle (s : State) : Event → Except JsError (State × List Delivery)
  | .connection p => .ok ({ s with sockets := insert p s.sockets }, [])
  | .join p roomId => .ok (onJoin s p roomId)
  | .offer p data => onOffer s p data
  | .answer p data => onAnswer s p data
  | .ice_candidate p data => onIceCandidate s p data
  | .disconnect p => .ok (onDisconnect (leaveAll s p) p)

/-- An event can occur: a connection brings a socket id not in use, every
other event comes from a connected socket. -/
def enabled (s : State) : Event → Bool
  | .connection p => decide (p ∉ s.sockets)
  | .join p _ => decide (p ∈ s.sockets)
  | .offer p _ => decide (p ∈ s.sockets)
  | .answer p _ => decide (p ∈ s.sockets)
  | .ice_candidate p _ => decide (p ∈ s.sockets)
  | .disconnect p => decide (p ∈ s.sockets)

/-- One step of the server: an enabled event whose handler returns. -/
def step (s : State) (e : Event) : Option (State × List Delivery) :=
  if enabled s e then
    match handle s e with
    | .ok r => some r
    | .error _ => none
  else none

/-- The state after a sequence of events, when each one is a step. -/
def run : State → List Event → Option State
  | s, [] => some s
  | s, e :: es =>
    match step s e with
    | some r => run r.1 es
    | none => none

/-- A state the server can be in. -/
def Reachable (s : State) : Prop :=
  ∃ es : List Event, run State.init es = some s

/-- The keys of the records that are not emptied, in order. -/
def MapData.keys : MapData → List RoomId
  | [] => []
  | none :: es => MapData.keys es
  | some (k, _) :: es => k :: MapData.keys es

/-- A `Map` holds a key once. -/
def MapData.WF (m : MapData) : Prop :=
  (MapData.keys m).Nodup

/-- What the `disconnect` callback leaves of one record. -/
def leaveEntry (p : SocketId) : Option (RoomId × Clients) → Option (RoomId × Clients)
  | none => none
  | some (k, v) =>
    if p ∈ v then
      if (v.erase p).card = 0 then none else some (k, v.erase p)
    else some (k, v)

/-- What the `disconnect` callback emits for one record. -/
def leaveEmit (s : State) (p : SocketId) : Option (RoomId × Clients) → List Delivery
  | none => []
  | some (k, v) =>
    if p ∈ v then
      if (v.erase p).card = 0 then [ioEmit s "room_available" (roomRef k)]
      else [ioToEmit s k "room_status"
        (roomStatus (v.erase p).card (decide ((v.erase p).card ≥ MAX_ROOM_SIZE)))]
    else []

/-- What the `disconnect` callback emits for the records of a list, in order. -/
def leaveEmits (s : State) (p : SocketId) : MapData → List Delivery
  | [] => []
  | e :: es => leaveEmit s p e ++ leaveEmits s p es

/-- The invariant of the reachable states: `rooms` holds a key once, a room
has one or two members, the transport's subscriptions are the memberships
recorded in `rooms`, and subscribers are connected. -/
structure Inv (s : State) : Prop where
  wf : MapData.WF s.rooms
  size : ∀ k v, some (k, v) ∈ s.rooms → 1 ≤ v.card ∧ v.card ≤ MAX_ROOM_SIZE
  sync : ∀ k q, (k, q) ∈ s.subs ↔ q ∈ s.members k
  live : ∀ k q, (k, q) ∈ s.subs → q ∈ s.sockets

/-- A run used as an example: `A`, `B` and `C` connect, `A` and `B` join
room `"r"`. -/
def sampleEvents : List Event :=
  [.connection "A", .connection "B", .connection "C", .join "A" (.str "r"),
    .join "B" (.str "r")]

/-- The state after `sampleEvents`: room `"r"` is full, `C` is in no room. -/
def sampleState : State :=
  ⟨[some (.str "r", {"B", "A"})], {"C", "B", "A"}, {(.str "r", "B"), (.str "r", "A")}⟩

/-- The state after `A` and `B` connect and `A` joins room `"r"`. -/
def loneState : State :=
  ⟨[some (.str "r", {"A"})], {"B", "A"}, {(.str "r", "A")}⟩

/-- The state after `A`, `B` and `C` connect. -/
def trioState : State :=
  ⟨[], {"C", "B", "A"}, ∅⟩

/-- The state after `A`, `B` and `C` connect and `A` and `B` join the room
named `"C"`, the socket id of `C`. -/
def cornerState : State :=
  ⟨[some (.str "C", {"B", "A"})], {"C", "B", "A"}, {(.str "C", "B"), (.str "C", "A")}⟩

/-- A table in which `A` is alone in room `"r"`, shares room `"q"` with `B`,
and `C` is alone in room `"z"`. -/
def multiState : State :=
  ⟨[some (.str "r", {"A"}), some (.str "q", {"B", "A"}), some (.str "z", {"C"})],
    {"C", "B", "A"},
    {(.str "r", "A"), (.str "q", "B"), (.str "q", "A"), (.str "z", "C")}⟩

/-- An emission of the `disconnect` handler concerns room `roomId`: it is
addressed to that room, or its payload is `{ roomId }`. -/
def Delivery.about (d : Delivery) (roomId : RoomId) : Bool :=
  decide (d.target = .room roomId) || decide (d.payload = roomRef roomId)

/-- The state after a run, with everything emitted along it, in order. -/
def runOut : State → List Event → Option (State × List Delivery)
  | s, [] => some (s, [])
  | s, e :: es =>
    match step s e with
    | some r =>
      match runOut r.1 es with
      | some t => some (t.1, r.2 ++ t.2)
      | none => none
    | none => none

/-- A `join` of `roomId` from `p` in state `s` is rejected: the handler emits
`room_full` to `p` and nothing else. -/
def joinRejected (s : State) (p : SocketId) (roomId : RoomId) : Bool :=
  decide ((onJoin s p roomId).2 = [socketEmit p "room_full" (roomRef roomId)])

/-- Along the run of `es` from `s`, every `join` of `roomId` from `p` is
rejected: `p` never joins `roomId` successfully. -/
def neverJoins (p : SocketId) (roomId : RoomId) : State → List Event → Bool
  | _, [] => true
  | s, e :: es =>
    (if e = .join p roomId then joinRejected s p roomId else true) &&
      (match step s e with
        | some r => neverJoins p roomId r.1 es
        | none => true)

/-- The table a `Map` stands for: its records that are not emptied, in
insertion order, as iterating the map would give them. -/
def MapData.entries : MapData → List (RoomId × Clients)
  | [] => []
  | none :: es => MapData.entries es
  | some e :: es => e :: MapData.entries es

/-! ## The `rooms` map -/

theorem MapData.mem_of_get {m : MapData} {k : RoomId} {v : Clients}
    (h : MapData.get m k = some v) : some (k, v) ∈ m := by
  induction m with
  | nil => simp [MapData.get] at h
  | cons e es ih =>
    rcases e with _ | ⟨k1, v1⟩
    · simp only [MapData.get] at h
      exact List.mem_cons_of_mem _ (ih h)
    · simp only [MapData.get] at h
      by_cases hk : k1 = k
      · simp only [hk, if_true, Option.some.injEq] at h
        subst hk; subst h
        exact List.mem_cons_self _ _
      · simp only [hk, if_false] at h
        exact List.mem_cons_of_mem _ (ih h)

theorem MapData.mem_keys_iff {m : MapData} {k : RoomId} :
    k ∈ MapData.keys m ↔ ∃ v, some (k, v) ∈ m := by
  induction m with
  | nil => simp [MapData.keys]
  | cons e es ih =>
    rcases e with _ | ⟨k1, v1⟩
    · simp [MapData.keys, ih]
    · simp only [MapData.keys, List.mem_cons, ih, Option.some.injEq, Prod.mk.injEq]
      constructor
      · rintro (h | ⟨v, hv⟩)
        · exact ⟨v1, Or.inl ⟨h, rfl⟩⟩
        · exact ⟨v, Or.inr hv⟩
      · rintro ⟨v, (⟨h, _⟩ | hv)⟩
        · exact Or.inl h
        · exact Or.inr ⟨v, hv⟩

theorem MapData.get_of_mem {m : MapData} {k : RoomId} {v : Clients}
    (hwf : MapData.WF m) (h : some (k, v) ∈ m) : MapData.get m k = some v := by
  induction m with
  | nil => simp at h
  | cons e es ih =>
    rcases e with _ | ⟨k1, v1⟩
    · simp only [List.mem_cons, reduceCtorEq, false_or] at h
      simpa [MapData.get] using ih (by simpa [MapData.WF, MapData.keys] using hwf) h
    · simp only [MapData.WF, MapData.keys, List.nodup_cons] at hwf
      simp only [List.mem_cons, Option.some.injEq, Prod.mk.injEq] at h
      rcases h with ⟨hk, hv⟩ | h
      · simp [MapData.get, hk, hv]
      · have hne : k1 ≠ k := by
          rintro rfl
          exact hwf.1 (MapData.mem_keys_iff.2 ⟨v, h⟩)
        simpa [MapData.get, hne] using ih hwf.2 h

theorem MapData.has_iff_mem_keys {m : MapData} {k : RoomId} :
    MapData.has m k = true ↔ k ∈ MapData.keys m := by
  induction m with
  | nil => simp [MapData.has, MapData.get, MapData.keys]
  | cons e es ih =>
    rcases e with _ | ⟨k1, v1⟩
    · simpa [MapData.has, MapData.get, MapData.keys] using ih
    · by_cases hk : k1 = k
      · simp [MapData.has, MapData.get, MapData.keys, hk]
      · have hk2 : ¬ k = k1 := fun h => hk h.symm
        simpa [MapData.has, MapData.get, MapData.keys, hk, hk2] using ih

theorem MapData.get_set_self (m : MapData) (k : RoomId) (v : Clients) :
    MapData.get (MapData.set m k v) k = some v := by
  induction m with
  | nil => simp [MapData.set, MapData.get]
  | cons e es ih =>
    rcases e with _ | ⟨k1, v1⟩
    · simpa [MapData.set, MapData.get] using ih
    · by_cases hk : k1 = k
      · simp [MapData.set, MapData.get, hk]
      · simpa [MapData.set, MapData.get, hk] using ih

theorem MapData.get_set_of_ne (m : MapData) {k k2 : RoomId} (v : Clients) (h : k2 ≠ k) :
    MapData.get (MapData.set m k v) k2 = MapData.get m k2 := by
  induction m with
  | nil => simp [MapData.set, MapData.get, h.symm]
  | cons e es ih =>
    rcases e with _ | ⟨k1, v1⟩
    · simpa [MapData.set, MapData.get] using ih
    · by_cases hk : k1 = k
      · subst hk
        simp [MapData.set, MapData.get, h.symm]
      · by_cases hk2 : k1 = k2
        · subst hk2
          simp [MapData.set, MapData.get, hk]
        · simpa [MapData.set, MapData.get, hk, hk2] using ih

theorem MapData.keys_set (m : MapData) (k : RoomId) (v : Clients) :
    MapData.keys (MapData.set m k v) =
      if MapData.has m k then MapData.keys m else MapData.keys m ++ [k] := by
  induction m with
  | nil => simp [MapData.set, MapData.keys, MapData.has, MapData.get]
  | cons e es ih =>
    rcases e with _ | ⟨k1, v1⟩
    · simpa [MapData.set, MapData.keys, MapData.has, MapData.get] using ih
    · by_cases hk : k1 = k
      · simp [MapData.set, MapData.keys, MapData.has, MapData.get, hk]
      · simp only [MapData.set, hk, if_false, MapData.keys, ih, MapData.has, MapData.get]
        split <;> simp

theorem MapData.mem_set {m : MapData} {k k2 : RoomId} {v v2 : Clients}
    (h : some (k2, v2) ∈ MapData.set m k v) :
    (k2 = k ∧ v2 = v) ∨ some (k2, v2) ∈ m := by
  induction m with
  | nil => simpa [MapData.set] using h
  | cons e es ih =>
    rcases e with _ | ⟨k1, v1⟩
    · simp only [MapData.set, List.mem_cons, reduceCtorEq, false_or] at h
      rcases ih h with h1 | h1
      · exact Or.inl h1
      · exact Or.inr (List.mem_cons_of_mem _ h1)
    · by_cases hk : k1 = k
      · simp only [MapData.set, hk, if_true, List.mem_cons, Option.some.injEq,
          Prod.mk.injEq] at h
        rcases h with h1 | h1
        · exact Or.inl h1
        · exact Or.inr (List.mem_cons_of_mem _ h1)
      · simp only [MapData.set, hk, if_false, List.mem_cons] at h
        rcases h with h1 | h1
        · exact Or.inr (h1 ▸ List.mem_cons_self _ _)
        · rcases ih h1 with h2 | h2
          · exact Or.inl h2
          · exact Or.inr (List.mem_cons_of_mem _ h2)

theorem MapData.wf_set {m : MapData} (k : RoomId) (v : Clients) (hwf : MapData.WF m) :
    MapData.WF (MapData.set m k v) := by
  unfold MapData.WF
  rw [MapData.keys_set]
  split
  · exact hwf
  · rename_i hhas
    have hk : k ∉ MapData.keys m := fun hmem => hhas (MapData.has_iff_mem_keys.2 hmem)
    exact List.nodup_append.2 ⟨hwf, List.nodup_singleton _, by
      intro a ha hb
      simp only [List.mem_singleton] at hb
      exact hk (hb ▸ ha)⟩

theorem MapData.set_set (m : MapData) (k : RoomId) (v v2 : Clients) :
    MapData.set (MapData.set m k v) k v2 = MapData.set m k v2 := by
  induction m with
  | nil => simp [MapData.set]
  | cons e es ih =>
    rcases e with _ | ⟨k1, v1⟩
    · simpa [MapData.set] using ih
    · by_cases hk : k1 = k
      · simp [MapData.set, hk]
      · simpa [MapData.set, hk] using ih

theorem MapData.get_eq_none_of_has {m : MapData} {k : RoomId}
    (h : MapData.has m k = false) : MapData.get m k = none := by
  simpa [MapData.has] using h

theorem MapData.has_of_get {m : MapData} {k : RoomId} {v : Clients}
    (h : MapData.get m k = some v) : MapData.has m k = true := by
  simp [MapData.has, h]

/-! ## The `join` handler -/

/-- The state after an accepted join. -/
theorem onJoin_rooms_accept (s : State) (p : SocketId) (r : RoomId) :
    (if !MapData.has s.rooms r then
        MapData.set (MapData.set s.rooms r ∅) r
          (insert p ((MapData.get (MapData.set s.rooms r ∅) r).getD ∅))
      else MapData.set s.rooms r (insert p ((MapData.get s.rooms r).getD ∅))) =
      MapData.set s.rooms r (insert p (s.members r)) := by
  cases hhas : MapData.has s.rooms r
  · simp [MapData.get_set_self, MapData.set_set, State.members,
      MapData.get_eq_none_of_has hhas]
  · simp [State.members]

theorem onJoin_full {s : State} {p : SocketId} {r : RoomId}
    (hhas : MapData.has s.rooms r = true) (hsize : MAX_ROOM_SIZE ≤ (s.members r).card) :
    onJoin s p r = (s, [socketEmit p "room_full" (roomRef r)]) := by
  unfold onJoin
  simp only [State.members] at hsize
  simp [hhas, hsize]

theorem onJoin_accept {s : State} {p : SocketId} {r : RoomId}
    (h : ¬ (MapData.has s.rooms r = true ∧ MAX_ROOM_SIZE ≤ (s.members r).card)) :
    onJoin s p r =
      ((⟨MapData.set s.rooms r (insert p (s.members r)), s.sockets, insert (r, p) s.subs⟩ : State),
        ioToEmit ⟨MapData.set s.rooms r (insert p (s.members r)), s.sockets,
            insert (r, p) s.subs⟩ r "room_status"
          (roomStatus (insert p (s.members r)).card
            (decide (MAX_ROOM_SIZE ≤ (insert p (s.members r)).card))) ::
        (if MAX_ROOM_SIZE ≤ (insert p (s.members r)).card then
          [ioEmit ⟨MapData.set s.rooms r (insert p (s.members r)), s.sockets,
            insert (r, p) s.subs⟩ "room_closed" (roomRef r)]
        else [])) := by
  have hrooms := onJoin_rooms_accept s p r
  have hcond : (MapData.has s.rooms r
      && decide (((MapData.get s.rooms r).getD ∅).card ≥ MAX_ROOM_SIZE)) = false := by
    simp only [State.members] at h
    cases hhas : MapData.has s.rooms r
    · simp
    · simp only [hhas, true_and, not_le] at h
      simp [h]
  unfold onJoin
  simp only [hcond, Bool.false_eq_true, if_false]
  cases hhas : MapData.has s.rooms r
  · simp only [hhas] at hrooms
    simp only [Bool.not_false, if_true] at hrooms ⊢
    rw [hrooms]
    simp only [MapData.get_set_self, Option.getD_some, socketJoin, ge_iff_le]
    split <;> rfl
  · simp only [hhas] at hrooms
    simp only [Bool.not_true, Bool.false_eq_true, if_false] at hrooms ⊢
    rw [hrooms]
    simp only [MapData.get_set_self, Option.getD_some, socketJoin, ge_iff_le]
    split <;> rfl

theorem members_set (s : State) (r k : RoomId) (v : Clients) (sk : Finset SocketId)
    (sb : Finset (RoomId × SocketId)) :
    State.members ⟨MapData.set s.rooms r v, sk, sb⟩ k = if k = r then v else s.members k := by
  by_cases hk : k = r
  · subst hk
    simp [State.members, MapData.get_set_self]
  · simp [State.members, MapData.get_set_of_ne _ _ hk, hk]

theorem joinedRoom_eq_members {s : State} (hinv : Inv s) (r : RoomId) :
    joinedRoom s r = s.members r := by
  ext q
  simp only [joinedRoom, Finset.mem_filter]
  constructor
  · rintro ⟨_, h⟩
    exact (hinv.sync r q).1 h
  · intro h
    exact ⟨hinv.live r q ((hinv.sync r q).2 h), (hinv.sync r q).2 h⟩

theorem inRoom_eq_union (s : State) (r : RoomId) :
    inRoom s r = joinedRoom s r ∪ ownRoom s r := by
  ext q
  simp only [inRoom, joinedRoom, ownRoom, Finset.mem_filter, Finset.mem_union]
  tauto

/-- The sockets in transport room `r`: the members recorded in `rooms`, and
the connected socket whose id is `r`. -/
theorem inRoom_eq_members {s : State} (hinv : Inv s) (r : RoomId) :
    inRoom s r = s.members r ∪ ownRoom s r := by
  rw [inRoom_eq_union, joinedRoom_eq_members hinv]

theorem mem_ownRoom {s : State} {r : RoomId} {q : SocketId} :
    q ∈ ownRoom s r ↔ q ∈ s.sockets ∧ r = JsVal.str q := by
  simp only [ownRoom, Finset.mem_filter]

theorem ownRoom_eq_empty {s : State} {r : RoomId} (h : ∀ q ∈ s.sockets, r ≠ JsVal.str q) :
    ownRoom s r = ∅ := by
  ext q
  simp only [mem_ownRoom, Finset.not_mem_empty, iff_false, not_and]
  exact fun hq => h q hq

theorem ownRoom_congr {s t : State} (h : s.sockets = t.sockets) (r : RoomId) :
    ownRoom s r = ownRoom t r := by
  simp only [ownRoom, h]

theorem members_card_le {s : State} (hinv : Inv s) (r : RoomId) :
    (s.members r).card ≤ MAX_ROOM_SIZE := by
  unfold State.members
  cases hget : MapData.get s.rooms r with
  | none => simp
  | some v => simpa using (hinv.size r v (MapData.mem_of_get hget)).2

theorem inv_onJoin {s : State} (hinv : Inv s) {p : SocketId} (hp : p ∈ s.sockets)
    (r : RoomId) : Inv (onJoin s p r).1 := by
  by_cases h : MapData.has s.rooms r = true ∧ MAX_ROOM_SIZE ≤ (s.members r).card
  · rw [onJoin_full h.1 h.2]
    exact hinv
  · rw [onJoin_accept h]
    refine ⟨MapData.wf_set _ _ hinv.wf, ?_, ?_, ?_⟩
    · intro k v hmem
      rcases MapData.mem_set hmem with ⟨_, hv⟩ | hold
      · subst hv
        refine ⟨by simp, ?_⟩
        have hle := Finset.card_insert_le p (s.members r)
        cases hhas : MapData.has s.rooms r
        · have hm : s.members r = ∅ := by
            simp [State.members, MapData.get_eq_none_of_has hhas]
          simp [hm, MAX_ROOM_SIZE]
        · simp only [hhas, true_and, not_le] at h
          simp only [MAX_ROOM_SIZE] at h ⊢
          omega
      · exact hinv.size k v hold
    · intro k q
      rw [members_set]
      simp only [Finset.mem_insert, Prod.mk.injEq]
      by_cases hk : k = r
      · subst hk
        simp only [true_and, if_true, Finset.mem_insert]
        rw [hinv.sync]
      · simp only [hk, false_and, false_or, if_false]
        exact hinv.sync k q
    · intro k q hmem
      simp only [Finset.mem_insert, Prod.mk.injEq] at hmem
      rcases hmem with ⟨_, hq⟩ | hold
      · exact hq ▸ hp
      · exact hinv.live k q hold

/-! ## The `disconnect` handler -/

theorem MapData.keys_append (a b : MapData) :
    MapData.keys (a ++ b) = MapData.keys a ++ MapData.keys b := by
  induction a with
  | nil => rfl
  | cons e es ih =>
    rcases e with _ | ⟨k1, v1⟩
    · simpa [MapData.keys] using ih
    · simp [MapData.keys, ih]

theorem MapData.delete_append {pre : MapData} {k : RoomId} (v : Clients) (suf : MapData)
    (hk : k ∉ MapData.keys pre) :
    MapData.delete (pre ++ some (k, v) :: suf) k = pre ++ none :: suf := by
  induction pre with
  | nil => simp [MapData.delete]
  | cons e es ih =>
    rcases e with _ | ⟨k1, v1⟩
    · simp only [MapData.keys] at hk
      simp [MapData.delete, ih hk]
    · simp only [MapData.keys, List.mem_cons, not_or] at hk
      have hne : ¬ k1 = k := fun h => hk.1 h.symm
      simp [MapData.delete, hne, ih hk.2]

theorem get?_append_length (pre : MapData) (e : Option (RoomId × Clients)) (suf : MapData) :
    (pre ++ e :: suf).get? pre.length = some e := by
  induction pre with
  | nil => rfl
  | cons x xs ih => simpa using ih

theorem get?_length_eq_none (pre : MapData) : pre.get? pre.length = none := by
  induction pre with
  | nil => rfl
  | cons x xs ih => simp

theorem set_append_length (pre : MapData) (e x : Option (RoomId × Clients)) (suf : MapData) :
    List.set (pre ++ e :: suf) pre.length x = pre ++ x :: suf := by
  induction pre with
  | nil => rfl
  | cons y ys ih => simp

theorem leaveEmit_congr {s t : State} (p : SocketId) (hk : s.sockets = t.sockets)
    (hb : s.subs = t.subs) (e : Option (RoomId × Clients)) :
    leaveEmit s p e = leaveEmit t p e := by
  rcases e with _ | ⟨k, v⟩
  · rfl
  · simp [leaveEmit, ioEmit, ioToEmit, inRoom, hk, hb]

theorem leaveEmits_congr {s t : State} (p : SocketId) (hk : s.sockets = t.sockets)
    (hb : s.subs = t.subs) (m : MapData) :
    leaveEmits s p m = leaveEmits t p m := by
  induction m with
  | nil => rfl
  | cons e es ih => simp [leaveEmits, ih, leaveEmit_congr p hk hb e]

theorem MapData.length_delete (m : MapData) (k : RoomId) :
    (MapData.delete m k).length = m.length := by
  induction m with
  | nil => rfl
  | cons e es ih =>
    rcases e with _ | ⟨k1, v1⟩
    · simp [MapData.delete, ih]
    · by_cases hk : k1 = k
      · simp [MapData.delete, hk]
      · simp [MapData.delete, hk, ih]

theorem length_disconnectCallback (s : State) (p : SocketId) (index : Nat) (roomId : RoomId)
    (clients : Clients) :
    (disconnectCallback s p index roomId clients).1.rooms.length = s.rooms.length := by
  unfold disconnectCallback
  by_cases hp : p ∈ clients
  · by_cases hcard : (clients.erase p).card = 0
    · simp only [hp, if_true, hcard, MapData.length_delete, List.length_set]
    · simp only [hp, if_true, hcard, if_false, List.length_set]
  · simp only [hp, if_false]

/-- The fuel of `onDisconnect` never runs out, in any state: the callback
keeps the number of records, so more fuel than the records left to visit
changes nothing. -/
theorem forEachFrom_fuel (p : SocketId) (extra : Nat) :
    ∀ (fuel index : Nat) (s : State) (out : List Delivery),
      s.rooms.length ≤ index + fuel →
      forEachFrom p (fuel + extra) index s out = forEachFrom p fuel index s out := by
  intro fuel
  induction fuel with
  | zero =>
    intro index s out hlen
    have hnone : s.rooms.get? index = none := by
      apply List.get?_eq_none.2
      omega
    cases extra with
    | zero => rfl
    | succ n => simp only [Nat.zero_add, forEachFrom, hnone]
  | succ f ih =>
    intro index s out hlen
    have hsucc : f + 1 + extra = (f + extra) + 1 := by omega
    rw [hsucc]
    cases hget : s.rooms.get? index with
    | none => simp only [forEachFrom, hget]
    | some e =>
      rcases e with _ | ⟨k, v⟩
      · simp only [forEachFrom, hget]
        exact ih (index + 1) s out (by omega)
      · simp only [forEachFrom, hget]
        exact ih (index + 1) _ _ (by rw [length_disconnectCallback]; omega)

/-- The walk of `forEach` visits every record from `index` on: with the
records `pre` before `index` and `suf` from `index` on, and fuel for all of
`suf`, it leaves `pre` alone and treats each record of `suf` by the callback. -/
theorem forEachFrom_eq (p : SocketId) (suf : MapData) :
    ∀ (pre : MapData) (s : State) (out : List Delivery) (fuel : Nat),
      s.rooms = pre ++ suf → MapData.WF (pre ++ suf) → suf.length ≤ fuel →
      forEachFrom p fuel pre.length s out =
        ({ s with rooms := pre ++ suf.map (leaveEntry p) }, out ++ leaveEmits s p suf) := by
  induction suf with
  | nil =>
    intro pre s out fuel hs _ _
    have hs2 : s.rooms = pre := by simpa using hs
    have hst : ({ s with rooms := pre ++ List.map (leaveEntry p) [] } : State) = s := by
      cases s
      simp at hs2
      simp [hs2]
    rw [hst]
    cases fuel with
    | zero => simp [forEachFrom, leaveEmits]
    | succ f => simp [forEachFrom, leaveEmits, hs2, get?_length_eq_none]
  | cons e suf ih =>
    intro pre s out fuel hs hwf hfuel
    cases fuel with
    | zero => simp at hfuel
    | succ f =>
      have hf : suf.length ≤ f := by simpa using hfuel
      have hlen : ∀ x : Option (RoomId × Clients), (pre ++ [x]).length = pre.length + 1 := by
        simp
      rcases e with _ | ⟨k, v⟩
      · have hs2 : s.rooms = (pre ++ [none]) ++ suf := by simpa using hs
        have hwf2 : MapData.WF ((pre ++ [none]) ++ suf) := by simpa using hwf
        have := ih (pre ++ [none]) s out f hs2 hwf2 hf
        rw [hlen] at this
        simp only [forEachFrom, hs, get?_append_length]
        rw [this]
        simp [leaveEntry, leaveEmits, leaveEmit]
      · have hkpre : k ∉ MapData.keys pre := by
          have h1 : (MapData.keys pre ++ k :: MapData.keys suf).Nodup := by
            simpa [MapData.WF, MapData.keys_append, MapData.keys] using hwf
          intro hmem
          exact (List.nodup_append.1 h1).2.2 hmem (List.mem_cons_self _ _)
        simp only [forEachFrom, hs, get?_append_length]
        by_cases hp : p ∈ v
        · by_cases hcard : (v.erase p).card = 0
          · have hs2 : ({ s with rooms := pre ++ none :: suf } : State).rooms =
                (pre ++ [none]) ++ suf := by simp
            have hwf2 : MapData.WF ((pre ++ [none]) ++ suf) := by
              have h1 : (MapData.keys pre ++ k :: MapData.keys suf).Nodup := by
                simpa [MapData.WF, MapData.keys_append, MapData.keys] using hwf
              have h2 : (MapData.keys pre ++ MapData.keys suf).Nodup :=
                h1.sublist (List.Sublist.append_left (List.sublist_cons_self _ _) _)
              simpa [MapData.WF, MapData.keys_append, MapData.keys] using h2
            have := ih (pre ++ [none]) { s with rooms := pre ++ none :: suf }
              (out ++ [ioEmit { s with rooms := pre ++ none :: suf } "room_available"
                (roomRef k)]) f hs2 hwf2 hf
            rw [hlen] at this
            simp only [disconnectCallback, hp, if_true, hcard, hs, set_append_length,
              MapData.delete_append _ _ hkpre]
            rw [this]
            have hc := leaveEmits_congr p (s := { s with rooms := pre ++ none :: suf })
              (t := s) rfl rfl suf
            simp [leaveEntry, leaveEmits, leaveEmit, hp, hcard, hc, ioEmit]
          · have hs2 : ({ s with rooms := pre ++ some (k, v.erase p) :: suf } : State).rooms =
                (pre ++ [some (k, v.erase p)]) ++ suf := by simp
            have hwf2 : MapData.WF ((pre ++ [some (k, v.erase p)]) ++ suf) := by
              simpa [MapData.WF, MapData.keys_append, MapData.keys] using hwf
            have := ih (pre ++ [some (k, v.erase p)])
              { s with rooms := pre ++ some (k, v.erase p) :: suf }
              (out ++ [ioToEmit { s with rooms := pre ++ some (k, v.erase p) :: suf } k
                "room_status" (roomStatus (v.erase p).card
                  (decide ((v.erase p).card ≥ MAX_ROOM_SIZE)))]) f hs2 hwf2 hf
            rw [hlen] at this
            simp only [disconnectCallback, hp, if_true, hcard, if_false, hs, set_append_length]
            rw [this]
            have hc := leaveEmits_congr p
              (s := { s with rooms := pre ++ some (k, v.erase p) :: suf }) (t := s) rfl rfl suf
            have hcard2 : ¬ (v.card - 1 = 0) := by
              rwa [Finset.card_erase_of_mem hp] at hcard
            simp [leaveEntry, leaveEmits, leaveEmit, hp, hcard2, hc, ioToEmit, inRoom]
        · have hs2 : s.rooms = (pre ++ [some (k, v)]) ++ suf := by simpa using hs
          have hwf2 : MapData.WF ((pre ++ [some (k, v)]) ++ suf) := by simpa using hwf
          have := ih (pre ++ [some (k, v)]) s out f hs2 hwf2 hf
          rw [hlen] at this
          simp only [disconnectCallback, hp, if_false, List.append_nil]
          rw [this]
          simp [leaveEntry, leaveEmits, leaveEmit, hp]

theorem onDisconnect_eq {s : State} (p : SocketId) (hwf : MapData.WF s.rooms) :
    onDisconnect s p =
      ({ s with rooms := s.rooms.map (leaveEntry p) }, leaveEmits s p s.rooms) := by
  have := forEachFrom_eq p s.rooms [] s [] s.rooms.length (by simp) (by simpa using hwf)
    (le_refl _)
  simpa [onDisconnect] using this

theorem MapData.keys_map_leaveEntry (p : SocketId) (m : MapData) :
    (MapData.keys (m.map (leaveEntry p))).Sublist (MapData.keys m) := by
  induction m with
  | nil => simp [MapData.keys]
  | cons e es ih =>
    rcases e with _ | ⟨k, v⟩
    · simpa [leaveEntry, MapData.keys] using ih
    · by_cases hp : p ∈ v
      · by_cases hcard : (v.erase p).card = 0
        · simp only [List.map_cons, leaveEntry, hp, if_true, hcard, MapData.keys]
          exact ih.trans (List.sublist_cons_self _ _)
        · simp only [List.map_cons, leaveEntry, hp, if_true, hcard, if_false, MapData.keys]
          exact ih.cons₂ _
      · simp only [List.map_cons, leaveEntry, hp, if_false, MapData.keys]
        exact ih.cons₂ _

theorem MapData.mem_map_leaveEntry {p : SocketId} {m : MapData} {k : RoomId} {v2 : Clients}
    (h : some (k, v2) ∈ m.map (leaveEntry p)) :
    ∃ v, some (k, v) ∈ m ∧
      ((p ∉ v ∧ v2 = v) ∨ (p ∈ v ∧ v2 = v.erase p ∧ (v.erase p).card ≠ 0)) := by
  rcases List.mem_map.1 h with ⟨e, he, hle⟩
  rcases e with _ | ⟨k1, v1⟩
  · simp [leaveEntry] at hle
  · by_cases hp : p ∈ v1
    · by_cases hcard : (v1.erase p).card = 0
      · simp [leaveEntry, hp, hcard] at hle
      · simp only [leaveEntry, hp, if_true, hcard, if_false, Option.some.injEq,
          Prod.mk.injEq] at hle
        rcases hle with ⟨hk, hv⟩
        subst hk
        exact ⟨v1, he, Or.inr ⟨hp, hv.symm, hcard⟩⟩
    · simp only [leaveEntry, hp, if_false, Option.some.injEq, Prod.mk.injEq] at hle
      rcases hle with ⟨hk, hv⟩
      subst hk
      exact ⟨v1, he, Or.inl ⟨hp, hv.symm⟩⟩

theorem MapData.get_eq_none_of_not_mem_keys {m : MapData} {k : RoomId}
    (h : k ∉ MapData.keys m) : MapData.get m k = none := by
  cases hget : MapData.get m k with
  | none => rfl
  | some v => exact absurd (MapData.mem_keys_iff.2 ⟨v, MapData.mem_of_get hget⟩) h

theorem leaveEntry_removed {p : SocketId} {k : RoomId} {v : Clients} (hp : p ∈ v)
    (hcard : (v.erase p).card = 0) : leaveEntry p (some (k, v)) = none := by
  simp only [leaveEntry, hp, if_true, hcard]

theorem leaveEntry_shrunk {p : SocketId} {k : RoomId} {v : Clients} (hp : p ∈ v)
    (hcard : ¬ (v.erase p).card = 0) : leaveEntry p (some (k, v)) = some (k, v.erase p) := by
  simp only [leaveEntry, hp, if_true, hcard, if_false]

theorem leaveEntry_kept {p : SocketId} {k : RoomId} {v : Clients} (hp : p ∉ v) :
    leaveEntry p (some (k, v)) = some (k, v) := by
  simp only [leaveEntry, hp, if_false]

theorem MapData.get_map_leaveEntry (p : SocketId) {m : MapData} (hwf : MapData.WF m)
    (k : RoomId) :
    (MapData.get (m.map (leaveEntry p)) k).getD ∅ = ((MapData.get m k).getD ∅).erase p := by
  induction m with
  | nil => simp [MapData.get]
  | cons e es ih =>
    rcases e with _ | ⟨k1, v1⟩
    · have hwf2 : MapData.WF es := by simpa [MapData.WF, MapData.keys] using hwf
      simpa [leaveEntry, MapData.get] using ih hwf2
    · simp only [MapData.WF, MapData.keys, List.nodup_cons] at hwf
      by_cases hk : k1 = k
      · subst hk
        have hnone : MapData.get (es.map (leaveEntry p)) k1 = none :=
          MapData.get_eq_none_of_not_mem_keys
            (fun hmem => hwf.1 ((MapData.keys_map_leaveEntry p es).subset hmem))
        by_cases hp : p ∈ v1
        · by_cases hcard : (v1.erase p).card = 0
          · rw [List.map_cons, leaveEntry_removed hp hcard]
            simp [MapData.get, hnone, Finset.card_eq_zero.1 hcard]
          · rw [List.map_cons, leaveEntry_shrunk hp hcard]
            simp [MapData.get]
        · rw [List.map_cons, leaveEntry_kept hp]
          simp [MapData.get, Finset.erase_eq_of_not_mem hp]
      · by_cases hp : p ∈ v1
        · by_cases hcard : (v1.erase p).card = 0
          · rw [List.map_cons, leaveEntry_removed hp hcard]
            simpa [MapData.get, hk] using ih hwf.2
          · rw [List.map_cons, leaveEntry_shrunk hp hcard]
            simpa [MapData.get, hk] using ih hwf.2
        · rw [List.map_cons, leaveEntry_kept hp]
          simpa [MapData.get, hk] using ih hwf.2

theorem handle_disconnect_eq {s : State} (p : SocketId) (hwf : MapData.WF s.rooms) :
    handle s (.disconnect p) =
      .ok ((⟨s.rooms.map (leaveEntry p), s.sockets.erase p,
          s.subs.filter (fun x => x.2 ≠ p)⟩ : State),
        leaveEmits (leaveAll s p) p s.rooms) := by
  have h := onDisconnect_eq (s := leaveAll s p) p (by simpa [leaveAll] using hwf)
  simp only [handle, h]
  rfl

theorem inv_disconnect {s : State} (hinv : Inv s) (p : SocketId) :
    Inv (⟨s.rooms.map (leaveEntry p), s.sockets.erase p,
      s.subs.filter (fun x => x.2 ≠ p)⟩ : State) := by
  refine ⟨hinv.wf.sublist (MapData.keys_map_leaveEntry p s.rooms), ?_, ?_, ?_⟩
  · intro k v2 hmem
    rcases MapData.mem_map_leaveEntry hmem with ⟨v, hv, ⟨_, he⟩ | ⟨hp, he, hcard⟩⟩
    · subst he
      exact hinv.size k v2 hv
    · subst he
      have hle := Finset.card_erase_le (s := v) (a := p)
      have := (hinv.size k v hv).2
      omega
  · intro k q
    simp only [State.members, MapData.get_map_leaveEntry p hinv.wf k, Finset.mem_filter,
      Finset.mem_erase]
    have := hinv.sync k q
    simp only [State.members] at this
    rw [this]
    exact and_comm
  · intro k q hmem
    simp only [Finset.mem_filter] at hmem
    exact Finset.mem_erase.2 ⟨hmem.2, hinv.live k q hmem.1⟩

/-! ## The relay handlers -/

theorem onOffer_obj (s : State) (p : SocketId) (fields : List (String × JsVal)) :
    onOffer s p (.obj fields) =
      .ok (s, [socketToEmit s p ((fields.lookup "roomId").getD .undefined) "offer"
        (.obj [("sdp", (fields.lookup "sdp").getD .undefined),
          ("type", (fields.lookup "type").getD .undefined)])]) := by
  rfl

theorem onAnswer_obj (s : State) (p : SocketId) (fields : List (String × JsVal)) :
    onAnswer s p (.obj fields) =
      .ok (s, [socketToEmit s p ((fields.lookup "roomId").getD .undefined) "answer"
        (.obj [("sdp", (fields.lookup "sdp").getD .undefined),
          ("type", (fields.lookup "type").getD .undefined)])]) := by
  rfl

theorem onIceCandidate_obj (s : State) (p : SocketId) (fields : List (String × JsVal)) :
    onIceCandidate s p (.obj fields) =
      .ok (s, [socketToEmit s p ((fields.lookup "roomId").getD .undefined) "ice_candidate"
        (.val ((fields.lookup "candidate").getD .undefined))]) := by
  rfl

theorem onOffer_state {s : State} {p : SocketId} {data : Data}
    {r : State × List Delivery} (h : onOffer s p data = .ok r) : r.1 = s := by
  rcases data with v | fields
  · cases v <;> simp [onOffer, Data.prop, bind, Except.bind, pure, Except.pure] at h <;>
      simp [← h]
  · rw [onOffer_obj] at h
    cases h
    rfl

theorem onAnswer_state {s : State} {p : SocketId} {data : Data}
    {r : State × List Delivery} (h : onAnswer s p data = .ok r) : r.1 = s := by
  rcases data with v | fields
  · cases v <;> simp [onAnswer, Data.prop, bind, Except.bind, pure, Except.pure] at h <;>
      simp [← h]
  · rw [onAnswer_obj] at h
    cases h
    rfl

theorem onIceCandidate_state {s : State} {p : SocketId} {data : Data}
    {r : State × List Delivery} (h : onIceCandidate s p data = .ok r) : r.1 = s := by
  rcases data with v | fields
  · cases v <;> simp [onIceCandidate, Data.prop, bind, Except.bind, pure, Except.pure] at h <;>
      simp [← h]
  · rw [onIceCandidate_obj] at h
    cases h
    rfl

/-! ## Reachable states -/

theorem inv_init : Inv State.init := by
  refine ⟨?_, ?_, ?_, ?_⟩
  · simp [State.init, MapData.WF, MapData.keys]
  · intro k v h
    simp [State.init] at h
  · intro k q
    simp [State.init, State.members, MapData.get]
  · intro k q h
    simp [State.init] at h

theorem inv_step {s : State} (hinv : Inv s) {e : Event} {r : State × List Delivery}
    (h : step s e = some r) : Inv r.1 := by
  unfold step at h
  cases hen : enabled s e
  · simp [hen] at h
  · simp only [hen, if_true] at h
    cases e with
    | connection p =>
      simp only [handle, Option.some.injEq] at h
      subst h
      exact ⟨hinv.wf, hinv.size, hinv.sync,
        fun k q hq => Finset.mem_insert_of_mem (hinv.live k q hq)⟩
    | join p roomId =>
      simp only [handle, Option.some.injEq] at h
      subst h
      exact inv_onJoin hinv (by simpa [enabled] using hen) roomId
    | offer p data =>
      simp only [handle] at h
      cases hr : onOffer s p data with
      | error x => simp [hr] at h
      | ok r2 =>
        simp only [hr, Option.some.injEq] at h
        subst h
        rw [onOffer_state hr]
        exact hinv
    | answer p data =>
      simp only [handle] at h
      cases hr : onAnswer s p data with
      | error x => simp [hr] at h
      | ok r2 =>
        simp only [hr, Option.some.injEq] at h
        subst h
        rw [onAnswer_state hr]
        exact hinv
    | ice_candidate p data =>
      simp only [handle] at h
      cases hr : onIceCandidate s p data with
      | error x => simp [hr] at h
      | ok r2 =>
        simp only [hr, Option.some.injEq] at h
        subst h
        rw [onIceCandidate_state hr]
        exact hinv
    | disconnect p =>
      rw [handle_disconnect_eq p hinv.wf] at h
      simp only [Option.some.injEq] at h
      subst h
      exact inv_disconnect hinv p

theorem inv_run {es : List Event} : ∀ {s t : State}, Inv s → run s es = some t → Inv t := by
  induction es with
  | nil =>
    intro s t hinv h
    simp only [run, Option.some.injEq] at h
    exact h ▸ hinv
  | cons e es ih =>
    intro s t hinv h
    simp only [run] at h
    cases hstep : step s e with
    | none => simp [hstep] at h
    | some r =>
      simp only [hstep] at h
      exact ih (inv_step hinv hstep) h

theorem inv_of_reachable {s : State} (h : Reachable s) : Inv s := by
  rcases h with ⟨es, hes⟩
  exact inv_run inv_init hes

theorem handle_offer_obj (s : State) (p : SocketId) (fields : List (String × JsVal))
    {r : RoomId} (hr : fields.lookup "roomId" = some r) :
    handle s (.offer p (.obj fields)) =
      .ok (s, [⟨.roomExcept r p, (inRoom s r).erase p, "offer",
        .obj [("sdp", (fields.lookup "sdp").getD .undefined),
          ("type", (fields.lookup "type").getD .undefined)]⟩]) := by
  simp only [handle, onOffer_obj, hr, Option.getD_some, socketToEmit]

theorem handle_answer_obj (s : State) (p : SocketId) (fields : List (String × JsVal))
    {r : RoomId} (hr : fields.lookup "roomId" = some r) :
    handle s (.answer p (.obj fields)) =
      .ok (s, [⟨.roomExcept r p, (inRoom s r).erase p, "answer",
        .obj [("sdp", (fields.lookup "sdp").getD .undefined),
          ("type", (fields.lookup "type").getD .undefined)]⟩]) := by
  simp only [handle, onAnswer_obj, hr, Option.getD_some, socketToEmit]

theorem handle_ice_candidate_obj (s : State) (p : SocketId) (fields : List (String × JsVal))
    {r : RoomId} (hr : fields.lookup "roomId" = some r) :
    handle s (.ice_candidate p (.obj fields)) =
      .ok (s, [⟨.roomExcept r p, (inRoom s r).erase p, "ice_candidate",
        .val ((fields.lookup "candidate").getD .undefined)⟩]) := by
  simp only [handle, onIceCandidate_obj, hr, Option.getD_some, socketToEmit]

theorem step_join {s : State} {p : SocketId} (hp : p ∈ s.sockets) (r : RoomId) :
    step s (.join p r) = some (onJoin s p r) := by
  simp [step, enabled, handle, hp]

theorem members_of_absent {s : State} {r : RoomId} (h : MapData.has s.rooms r = false) :
    s.members r = ∅ := by
  simp [State.members, MapData.get_eq_none_of_has h]

/-- An accepted join in a state satisfying the invariant: the new state, and
the messages with the sockets they reach. -/
theorem onJoin_accept_inv {s : State} (hinv : Inv s) {p : SocketId} (hp : p ∈ s.sockets)
    {r : RoomId}
    (h : ¬ (MapData.has s.rooms r = true ∧ MAX_ROOM_SIZE ≤ (s.members r).card)) :
    onJoin s p r =
      ((⟨MapData.set s.rooms r (insert p (s.members r)), s.sockets, insert (r, p) s.subs⟩ : State),
        (⟨.room r, insert p (s.members r) ∪ ownRoom s r, "room_status",
          .obj [("size", .num (insert p (s.members r)).card),
            ("isRoomFull", .bool (decide (MAX_ROOM_SIZE ≤ (insert p (s.members r)).card)))]⟩ :
            Delivery) ::
        (if MAX_ROOM_SIZE ≤ (insert p (s.members r)).card then
          [⟨.all, s.sockets, "room_closed", .obj [("roomId", r)]⟩]
        else [])) := by
  have hinv2 := inv_onJoin hinv hp r
  rw [onJoin_accept h] at hinv2 ⊢
  have hrec := inRoom_eq_members hinv2 r
  rw [members_set] at hrec
  simp only [if_true] at hrec
  have hown : ownRoom ⟨MapData.set s.rooms r (insert p (s.members r)), s.sockets,
      insert (r, p) s.subs⟩ r = ownRoom s r := rfl
  rw [hown] at hrec
  simp only [ioToEmit, hrec, ioEmit, roomStatus, roomRef]

theorem members_ne_empty {s : State} (hinv : Inv s) {r : RoomId}
    (hhas : MapData.has s.rooms r = true) : s.members r ≠ ∅ := by
  unfold State.members
  cases hget : MapData.get s.rooms r with
  | none => simp [MapData.has, hget] at hhas
  | some v =>
    intro hempty
    have := (hinv.size r v (MapData.mem_of_get hget)).1
    simp only [Option.getD_some] at hempty
    simp [hempty] at this

theorem get_of_mem_members {s : State} {r : RoomId} {q : SocketId} (h : q ∈ s.members r) :
    MapData.get s.rooms r = some (s.members r) := by
  unfold State.members at h ⊢
  cases hget : MapData.get s.rooms r with
  | none => simp [hget] at h
  | some v => rfl

theorem connected_of_member {s : State} (hinv : Inv s) {r : RoomId} {q : SocketId}
    (h : q ∈ s.members r) : q ∈ s.sockets :=
  hinv.live r q ((hinv.sync r q).2 h)

theorem step_disconnect {s : State} (hinv : Inv s) {p : SocketId} (hp : p ∈ s.sockets) :
    step s (.disconnect p) =
      some ((⟨s.rooms.map (leaveEntry p), s.sockets.erase p,
          s.subs.filter (fun x => x.2 ≠ p)⟩ : State),
        leaveEmits (leaveAll s p) p s.rooms) := by
  simp [step, enabled, hp, handle_disconnect_eq p hinv.wf]

theorem members_disconnect {s : State} (hinv : Inv s) (p : SocketId) (r : RoomId) :
    State.members ⟨s.rooms.map (leaveEntry p), s.sockets.erase p,
      s.subs.filter (fun x => x.2 ≠ p)⟩ r = (s.members r).erase p := by
  simp only [State.members, MapData.get_map_leaveEntry p hinv.wf r]

theorem inRoom_leaveAll {s : State} (hinv : Inv s) (p : SocketId) (r : RoomId) :
    inRoom (leaveAll s p) r = (s.members r).erase p ∪ ownRoom (leaveAll s p) r := by
  have h1 := inRoom_eq_members (inv_disconnect hinv p) r
  rw [members_disconnect hinv] at h1
  exact h1

theorem not_mem_ownRoom_leaveAll (s : State) (p : SocketId) (r : RoomId) :
    p ∉ ownRoom (leaveAll s p) r := by
  simp [mem_ownRoom, leaveAll]

theorem mem_leaveEmits {s : State} {p : SocketId} {m : MapData} {e : Option (RoomId × Clients)}
    {d : Delivery} (he : e ∈ m) (hd : d ∈ leaveEmit s p e) : d ∈ leaveEmits s p m := by
  induction m with
  | nil => simp at he
  | cons x xs ih =>
    simp only [leaveEmits, List.mem_append]
    rcases List.mem_cons.1 he with rfl | hxs
    · exact Or.inl hd
    · exact Or.inr (ih hxs)

theorem of_mem_leaveEmits {s : State} {p : SocketId} {m : MapData} {d : Delivery}
    (hd : d ∈ leaveEmits s p m) : ∃ e ∈ m, d ∈ leaveEmit s p e := by
  induction m with
  | nil => simp [leaveEmits] at hd
  | cons x xs ih =>
    simp only [leaveEmits, List.mem_append] at hd
    rcases hd with h | h
    · exact ⟨x, List.mem_cons_self _ _, h⟩
    · rcases ih h with ⟨e, he, hde⟩
      exact ⟨e, List.mem_cons_of_mem _ he, hde⟩

/-- The walk of `forEach` changes nothing and emits nothing when the socket is
in no record. -/
theorem forEachFrom_of_not_mem (p : SocketId) (fuel : Nat) :
    ∀ (index : Nat) (s : State) (out : List Delivery),
      (∀ r clients, some (r, clients) ∈ s.rooms → p ∉ clients) →
      forEachFrom p fuel index s out = (s, out) := by
  induction fuel with
  | zero =>
    intro index s out _
    rfl
  | succ f ih =>
    intro index s out hno
    cases hget : s.rooms.get? index with
    | none => simp only [forEachFrom, hget]
    | some e =>
      rcases e with _ | ⟨k, v⟩
      · simp only [forEachFrom, hget]
        exact ih (index + 1) s out hno
      · have hp : p ∉ v := hno k v (List.get?_mem hget)
        simp only [forEachFrom, hget, disconnectCallback, hp, if_false, List.append_nil]
        exact ih (index + 1) s out hno

theorem sampleState_C_in_no_room :
    ∀ r clients, some (r, clients) ∈ sampleState.rooms → "C" ∉ clients := by
  intro r clients h
  simp only [sampleState, List.mem_singleton, Option.some.injEq, Prod.mk.injEq] at h
  rw [h.2]
  decide

theorem sampleState_C_member_of_none : ∀ k, "C" ∉ sampleState.members k := by
  intro k
  by_cases hk : (JsVal.str "r") = k
  · subst hk
    decide
  · simp [sampleState, State.members, MapData.get, hk]

theorem sampleState_reachable : Reachable sampleState :=
  ⟨sampleEvents, by decide⟩

theorem trioState_reachable : Reachable trioState :=
  ⟨[.connection "A", .connection "B", .connection "C"], by decide⟩

theorem cornerState_reachable : Reachable cornerState :=
  ⟨[.connection "A", .connection "B", .connection "C", .join "A" (.str "C"),
    .join "B" (.str "C")], by decide⟩

theorem loneState_reachable : Reachable loneState :=
  ⟨[.connection "A", .connection "B", .join "A" (.str "r")], by decide⟩

/-! ## The claims -/

/-- C1, capacity invariant: in every state the server can reach, every record
of `rooms` holds at most `MAX_ROOM_SIZE = 2` members, and so does the member
set looked up for any room id. -/
theorem capacity_invariant (s : State) (h : Reachable s) :
    (∀ r clients, some (r, clients) ∈ s.rooms → clients.card ≤ MAX_ROOM_SIZE) ∧
      (∀ r, (s.members r).card ≤ MAX_ROOM_SIZE) ∧ MAX_ROOM_SIZE = 2 :=
  ⟨fun r clients hmem => ((inv_of_reachable h).size r clients hmem).2,
    fun r => members_card_le (inv_of_reachable h) r, rfl⟩

/-- An instance of C1: the state after `sampleEvents`, where room `"r"` is full. -/
theorem capacity_invariant_witness :
    Reachable sampleState ∧
      ((∀ r clients, some (r, clients) ∈ sampleState.rooms → clients.card ≤ MAX_ROOM_SIZE) ∧
        (∀ r, (sampleState.members r).card ≤ MAX_ROOM_SIZE) ∧ MAX_ROOM_SIZE = 2) :=
  ⟨sampleState_reachable, capacity_invariant sampleState sampleState_reachable⟩

/-- C2, no empty room: in every state the server can reach, no record of
`rooms` holds an empty member set, so a room id that `rooms.has` has at least
one member: a room that loses its last member is deleted. -/
theorem no_empty_room (s : State) (h : Reachable s) :
    (∀ r clients, some (r, clients) ∈ s.rooms → clients ≠ ∅) ∧
      (∀ r, MapData.has s.rooms r = true → s.members r ≠ ∅) := by
  have hinv := inv_of_reachable h
  have h1 : ∀ r clients, some (r, clients) ∈ s.rooms → clients ≠ ∅ := by
    intro r clients hmem hempty
    have := (hinv.size r clients hmem).1
    simp [hempty] at this
  refine ⟨h1, ?_⟩
  intro r hhas
  unfold State.members
  cases hget : MapData.get s.rooms r with
  | none => simp [MapData.has, hget] at hhas
  | some v => simpa using h1 r v (MapData.mem_of_get hget)

/-- An instance of C2: the state where `A` is alone in room `"r"`. -/
theorem no_empty_room_witness :
    Reachable loneState ∧
      ((∀ r clients, some (r, clients) ∈ loneState.rooms → clients ≠ ∅) ∧
        (∀ r, MapData.has loneState.rooms r = true → loneState.members r ≠ ∅)) :=
  ⟨loneState_reachable, no_empty_room loneState loneState_reachable⟩

/-- C3, rejected join: in every state in which `roomId` is present with at
least `MAX_ROOM_SIZE` members, a `join` of `roomId` from any socket `p` leaves
the whole state as it is and emits exactly one message, `room_full` with
payload `{ roomId }`, to `p` alone. -/
theorem rejected_join (s : State) (p : SocketId) (roomId : RoomId) (clients : Clients)
    (hroom : MapData.get s.rooms roomId = some clients)
    (hfull : MAX_ROOM_SIZE ≤ clients.card) :
    handle s (.join p roomId) =
      .ok (s, [⟨.socket p, {p}, "room_full", .obj [("roomId", roomId)]⟩]) := by
  have hm : s.members roomId = clients := by simp [State.members, hroom]
  simp only [handle]
  rw [onJoin_full (MapData.has_of_get hroom) (hm ▸ hfull)]
  rfl

/-- An instance of C3: `C` joins the full room `"r"`. -/
theorem rejected_join_witness :
    MapData.get sampleState.rooms (.str "r") = some {"B", "A"} ∧
      MAX_ROOM_SIZE ≤ ({"B", "A"} : Clients).card ∧
      handle sampleState (.join "C" (.str "r")) =
        .ok (sampleState, [⟨.socket "C", {"C"}, "room_full", .obj [("roomId", .str "r")]⟩]) :=
  ⟨rfl, by decide, rejected_join sampleState "C" (.str "r") {"B", "A"} rfl (by decide)⟩

/-- C4 as stated fails: in the reachable state where `A` and `B` are the
members of room `"r"` and `C` is a member of no room, an `offer` from `C` that
names `"r"` is delivered to `A` and `B`. -/
theorem non_member_offer_is_delivered :
    Reachable sampleState ∧ "C" ∉ sampleState.members (.str "r") ∧
      handle sampleState
          (.offer "C" (.obj [("roomId", .str "r"), ("sdp", .str "v=0"), ("type", .str "offer")])) =
        .ok (sampleState, [⟨.roomExcept (.str "r") "C", {"B", "A"}, "offer",
          .obj [("sdp", .str "v=0"), ("type", .str "offer")]⟩]) :=
  ⟨sampleState_reachable, by decide, rfl⟩

/-- C4, amended: in every reachable state, an `offer`, `answer` or
`ice_candidate` from a socket `p` that is not a member of room `r`, with a
payload object naming `r`, throws nothing, leaves the state as it is and emits
one message of the same event name, handed to exactly the members of `r` and,
when `r` is the id of a connected socket other than `p`, to that socket; it
reaches nobody exactly when `r` has no member and names no such socket. -/
theorem relay_from_non_member (s : State) (h : Reachable s) (r : RoomId) (p : SocketId)
    (hp : p ∉ s.members r) (fields : List (String × JsVal))
    (hr : fields.lookup "roomId" = some r) :
    (∃ d, handle s (.offer p (.obj fields)) = .ok (s, [d]) ∧ d.event = "offer" ∧
        d.recipients = s.members r ∪ (ownRoom s r).erase p) ∧
      (∃ d, handle s (.answer p (.obj fields)) = .ok (s, [d]) ∧ d.event = "answer" ∧
        d.recipients = s.members r ∪ (ownRoom s r).erase p) ∧
      (∃ d, handle s (.ice_candidate p (.obj fields)) = .ok (s, [d]) ∧
        d.event = "ice_candidate" ∧ d.recipients = s.members r ∪ (ownRoom s r).erase p) := by
  have hrec : (inRoom s r).erase p = s.members r ∪ (ownRoom s r).erase p := by
    rw [inRoom_eq_members (inv_of_reachable h), Finset.erase_union_distrib,
      Finset.erase_eq_of_not_mem hp]
  exact ⟨⟨_, handle_offer_obj s p fields hr, rfl, hrec⟩,
    ⟨_, handle_answer_obj s p fields hr, rfl, hrec⟩,
    ⟨_, handle_ice_candidate_obj s p fields hr, rfl, hrec⟩⟩

/-- An instance of the amended C4: `C`, in no room, sends an `offer` naming `"r"`. -/
theorem relay_from_non_member_witness :
    Reachable sampleState ∧ "C" ∉ sampleState.members (.str "r") ∧
      (∃ d, handle sampleState (.offer "C" (.obj [("roomId", .str "r")])) =
          .ok (sampleState, [d]) ∧ d.event = "offer" ∧
        d.recipients =
          sampleState.members (.str "r") ∪ (ownRoom sampleState (.str "r")).erase "C") :=
  ⟨sampleState_reachable, by decide,
    (relay_from_non_member sampleState sampleState_reachable (.str "r") "C" (by decide)
      [("roomId", .str "r")] rfl).1⟩

/-- C5 as stated fails: in the reachable state where `A` and `B` are the
members of the room named `"C"` and `C` is connected and a member of no room,
an `offer` from `A` that names `"C"` is handed to `B` and also to `C`, which
is not a member. -/
theorem relay_reaches_named_socket :
    Reachable cornerState ∧ cornerState.members (.str "C") = {"A", "B"} ∧
      "C" ∉ cornerState.members (.str "C") ∧
      handle cornerState
          (.offer "A" (.obj [("roomId", .str "C"), ("sdp", .str "v=0"), ("type", .str "offer")])) =
        .ok (cornerState, [⟨.roomExcept (.str "C") "A", {"C", "B"}, "offer",
          .obj [("sdp", .str "v=0"), ("type", .str "offer")]⟩]) :=
  ⟨cornerState_reachable, by decide, by decide, rfl⟩

/-- C5, amended: in every reachable state in which the members of room `r` are
exactly the two sockets `A` and `B`, an `offer`, `answer` or `ice_candidate`
from `A` with a payload object naming `r` emits exactly one message, of the
same event name, handed to `B`, not to `A`, and to no other socket except the
connected socket whose id is `r`, if there is one; when `r` is the id of no
connected socket other than `A` and `B`, it is handed to `B` alone. -/
theorem relay_routing (s : State) (h : Reachable s) (r : RoomId) (A B : SocketId)
    (hAB : A ≠ B) (hm : s.members r = {A, B}) (fields : List (String × JsVal))
    (hr : fields.lookup "roomId" = some r) :
    (∃ d, handle s (.offer A (.obj fields)) = .ok (s, [d]) ∧ d.event = "offer" ∧
        d.recipients = {B} ∪ (ownRoom s r).erase A) ∧
      (∃ d, handle s (.answer A (.obj fields)) = .ok (s, [d]) ∧ d.event = "answer" ∧
        d.recipients = {B} ∪ (ownRoom s r).erase A) ∧
      (∃ d, handle s (.ice_candidate A (.obj fields)) = .ok (s, [d]) ∧
        d.event = "ice_candidate" ∧ d.recipients = {B} ∪ (ownRoom s r).erase A) ∧
      A ∉ ({B} ∪ (ownRoom s r).erase A : Finset SocketId) ∧
      ((∀ q ∈ s.sockets, r = JsVal.str q → q = A ∨ q = B) →
        ({B} ∪ (ownRoom s r).erase A : Finset SocketId) = {B}) := by
  have hpair : ({A, B} : Finset SocketId).erase A = {B} := by
    ext q
    simp only [Finset.mem_erase, Finset.mem_insert, Finset.mem_singleton]
    constructor
    · rintro ⟨hne, hq | hq⟩
      · exact absurd hq hne
      · exact hq
    · intro hq
      exact ⟨fun hqa => hAB (hqa.symm.trans hq), Or.inr hq⟩
  have hrec : (inRoom s r).erase A = {B} ∪ (ownRoom s r).erase A := by
    rw [inRoom_eq_members (inv_of_reachable h), hm, Finset.erase_union_distrib, hpair]
  refine ⟨⟨_, handle_offer_obj s A fields hr, rfl, hrec⟩,
    ⟨_, handle_answer_obj s A fields hr, rfl, hrec⟩,
    ⟨_, handle_ice_candidate_obj s A fields hr, rfl, hrec⟩, ?_, ?_⟩
  · simp only [Finset.mem_union, Finset.mem_singleton, Finset.mem_erase, not_or]
    exact ⟨hAB, fun hc => hc.1 rfl⟩
  · intro hown
    ext q
    simp only [Finset.mem_union, Finset.mem_singleton, Finset.mem_erase, mem_ownRoom]
    constructor
    · rintro (hq | ⟨hne, hqs, hrq⟩)
      · exact hq
      · rcases hown q hqs hrq with hqa | hqb
        · exact absurd hqa hne
        · exact hqb
    · exact fun hq => Or.inl hq

/-- An instance of the amended C5: `A` sends an `offer` naming `"r"`, whose
members are `A` and `B`; no socket has the id `"r"`. -/
theorem relay_routing_witness :
    Reachable sampleState ∧ sampleState.members (.str "r") = {"A", "B"} ∧
      (∃ d, handle sampleState (.offer "A" (.obj [("roomId", .str "r")])) =
          .ok (sampleState, [d]) ∧ d.event = "offer" ∧
        d.recipients = {"B"} ∪ (ownRoom sampleState (.str "r")).erase "A") :=
  ⟨sampleState_reachable, by decide,
    (relay_routing sampleState sampleState_reachable (.str "r") "A" "B" (by decide) (by decide)
      [("roomId", .str "r")] rfl).1⟩

/-- C6 as stated fails: `A`, `B` and `C` are connected and the room named
`"C"`, the socket id of `C`, is absent; when `A` then `B` join it, the
`room_status` of the second join is handed to `C` as well, which did not
join. -/
theorem two_joins_reach_named_socket :
    Reachable trioState ∧ MapData.has trioState.rooms (.str "C") = false ∧
      step trioState (.join "A" (.str "C")) =
        some (⟨[some (.str "C", {"A"})], {"C", "B", "A"}, {(.str "C", "A")}⟩,
          [⟨.room (.str "C"), {"C", "A"}, "room_status",
            .obj [("size", .num 1), ("isRoomFull", .bool false)]⟩]) ∧
      step ⟨[some (.str "C", {"A"})], {"C", "B", "A"}, {(.str "C", "A")}⟩
          (.join "B" (.str "C")) =
        some (cornerState,
          [⟨.room (.str "C"), {"C", "B", "A"}, "room_status",
              .obj [("size", .num 2), ("isRoomFull", .bool true)]⟩,
            ⟨.all, {"C", "B", "A"}, "room_closed", .obj [("roomId", .str "C")]⟩]) ∧
      "C" ∉ ({"A", "B"} : Finset SocketId) :=
  ⟨trioState_reachable, rfl, rfl, rfl, by decide⟩

/-- C6, amended: from a reachable state in which room `r` is absent, when two
distinct connected sockets `X` then `Y` join `r`, the second join emits
exactly two messages: `room_status` with `{ size: 2, isRoomFull: true }`,
handed to `X`, to `Y` and to no other socket except the connected socket whose
id is `r`, if there is one, and one `room_closed` with `{ roomId: r }`, handed
to every connected socket; when `r` is the id of no connected socket other
than `X` and `Y`, the `room_status` is handed to `X` and `Y` alone. -/
theorem two_joins_fill_room (s : State) (h : Reachable s) (r : RoomId)
    (hr : MapData.has s.rooms r = false) (X Y : SocketId) (hXY : X ≠ Y)
    (hX : X ∈ s.sockets) (hY : Y ∈ s.sockets) :
    ∃ s1 out1 s2, step s (.join X r) = some (s1, out1) ∧
      step s1 (.join Y r) = some (s2,
        [⟨.room r, {X, Y} ∪ ownRoom s r, "room_status",
            .obj [("size", .num 2), ("isRoomFull", .bool true)]⟩,
          ⟨.all, s2.sockets, "room_closed", .obj [("roomId", r)]⟩]) ∧
      s2.sockets = s.sockets ∧ s2.members r = {X, Y} ∧
      ((∀ q ∈ s.sockets, r = JsVal.str q → q = X ∨ q = Y) →
        ({X, Y} ∪ ownRoom s r : Finset SocketId) = {X, Y}) := by
  have hinv := inv_of_reachable h
  have hempty := members_of_absent hr
  have hacc1 : ¬ (MapData.has s.rooms r = true ∧ MAX_ROOM_SIZE ≤ (s.members r).card) := by
    simp [hr]
  have h1 := onJoin_accept_inv hinv hX hacc1
  have hinv1 := inv_onJoin hinv hX r
  rw [h1] at hinv1
  simp only at hinv1
  have hm1 : State.members
      ⟨MapData.set s.rooms r (insert X (s.members r)), s.sockets, insert (r, X) s.subs⟩ r =
      {X} := by
    rw [members_set]
    simp [hempty]
  have hacc2 : ¬ (MapData.has (State.rooms
      ⟨MapData.set s.rooms r (insert X (s.members r)), s.sockets, insert (r, X) s.subs⟩) r = true ∧
      MAX_ROOM_SIZE ≤ (State.members
        ⟨MapData.set s.rooms r (insert X (s.members r)), s.sockets, insert (r, X) s.subs⟩
          r).card) := by
    rw [hm1]
    simp [MAX_ROOM_SIZE]
  have h2 := onJoin_accept_inv hinv1 (p := Y) hY hacc2
  rw [hm1] at h2
  have hpair : (insert Y {X} : Finset SocketId) = {X, Y} := Finset.pair_comm Y X
  have hcard : ({X, Y} : Finset SocketId).card = 2 := Finset.card_pair hXY
  have hown : ownRoom ⟨MapData.set s.rooms r (insert X (s.members r)), s.sockets,
      insert (r, X) s.subs⟩ r = ownRoom s r := rfl
  rw [hpair, hown] at h2
  simp only [hcard, MAX_ROOM_SIZE, le_refl, if_true, decide_True, Nat.cast_ofNat] at h2
  refine ⟨⟨MapData.set s.rooms r (insert X (s.members r)), s.sockets, insert (r, X) s.subs⟩,
    (onJoin s X r).2,
    ⟨MapData.set (MapData.set s.rooms r (insert X (s.members r))) r {X, Y}, s.sockets,
      insert (r, Y) (insert (r, X) s.subs)⟩, ?_, ?_, rfl, ?_, ?_⟩
  · rw [step_join hX r, h1]
  · rw [step_join (s := ⟨MapData.set s.rooms r (insert X (s.members r)), s.sockets,
      insert (r, X) s.subs⟩) hY r, h2]
  · simp [State.members, MapData.get_set_self]
  · intro hown2
    ext q
    simp only [Finset.mem_union, Finset.mem_insert, Finset.mem_singleton, mem_ownRoom]
    constructor
    · rintro (hq | ⟨hqs, hrq⟩)
      · exact hq
      · exact hown2 q hqs hrq
    · exact fun hq => Or.inl hq

/-- An instance of the amended C6: `A` then `B` join the absent room `"q"`. -/
theorem two_joins_fill_room_witness :
    Reachable loneState ∧ MapData.has loneState.rooms (.str "q") = false ∧
      ∃ s1 out1 s2, step loneState (.join "A" (.str "q")) = some (s1, out1) ∧
        step s1 (.join "B" (.str "q")) = some (s2,
          [⟨.room (.str "q"), {"A", "B"} ∪ ownRoom loneState (.str "q"), "room_status",
              .obj [("size", .num 2), ("isRoomFull", .bool true)]⟩,
            ⟨.all, s2.sockets, "room_closed", .obj [("roomId", .str "q")]⟩]) ∧
        s2.sockets = loneState.sockets ∧ s2.members (.str "q") = {"A", "B"} ∧
        ((∀ q ∈ loneState.sockets, JsVal.str "q" = JsVal.str q → q = "A" ∨ q = "B") →
          ({"A", "B"} ∪ ownRoom loneState (.str "q") : Finset SocketId) = {"A", "B"}) :=
  ⟨loneState_reachable, rfl,
    two_joins_fill_room loneState loneState_reachable (.str "q") rfl "A" "B" (by decide)
      (by decide) (by decide)⟩

/-- C7 as stated fails: `A`, `B` and `C` are connected and `A` joins the
absent room named `"C"`, the socket id of `C`; the join is accepted, `A` is
the only member, and the `room_status` is handed to `A` and to `C`, which is
not a member. -/
theorem join_status_reaches_named_socket :
    Reachable trioState ∧
      ∃ s2, step trioState (.join "A" (.str "C")) =
          some (s2, [⟨.room (.str "C"), {"C", "A"}, "room_status",
            .obj [("size", .num 1), ("isRoomFull", .bool false)]⟩]) ∧
        s2.members (.str "C") = {"A"} ∧ "C" ∉ s2.members (.str "C") :=
  ⟨trioState_reachable, _, rfl, by decide, by decide⟩

/-- C7, amended: in every reachable state, a `join` of `r` from a connected
socket `p` that the guard of line 21 does not reject makes `p` a member of
`r`; it emits `room_status` with `{ size, isRoomFull: size >= 2 }`, `size`
being the new member count, handed to the new members of `r` and to no other
socket except the connected socket whose id is `r`, if there is one, followed
by a `room_closed` for `r` handed to every connected socket if and only if
`size >= 2`.  When `r` is the id of no connected socket outside the new
members, the `room_status` is handed to exactly the new members.  When the
join creates the room, `p` is its only member, `size` is 1, `isRoomFull` is
false and there is no `room_closed`. -/
theorem accepted_join (s : State) (h : Reachable s) (p : SocketId) (hp : p ∈ s.sockets)
    (r : RoomId)
    (hacc : ¬ (MapData.has s.rooms r = true ∧ MAX_ROOM_SIZE ≤ (s.members r).card)) :
    ∃ s2 out, step s (.join p r) = some (s2, out) ∧ p ∈ s2.members r ∧
      out = (⟨.room r, s2.members r ∪ ownRoom s2 r, "room_status",
          .obj [("size", .num (s2.members r).card),
            ("isRoomFull", .bool (decide (2 ≤ (s2.members r).card)))]⟩ : Delivery) ::
        (if 2 ≤ (s2.members r).card then
          [⟨.all, s2.sockets, "room_closed", .obj [("roomId", r)]⟩]
        else []) ∧
      ((∀ q ∈ s2.sockets, r = JsVal.str q → q ∈ s2.members r) →
        s2.members r ∪ ownRoom s2 r = s2.members r) ∧
      (MapData.has s.rooms r = false →
        s2.members r = {p} ∧
          out = [⟨.room r, {p} ∪ ownRoom s2 r, "room_status",
            .obj [("size", .num 1), ("isRoomFull", .bool false)]⟩]) := by
  have hinv := inv_of_reachable h
  have h1 := onJoin_accept_inv hinv hp hacc
  have hm : State.members
      ⟨MapData.set s.rooms r (insert p (s.members r)), s.sockets, insert (r, p) s.subs⟩ r =
      insert p (s.members r) := by
    rw [members_set]
    simp
  have hown : ownRoom ⟨MapData.set s.rooms r (insert p (s.members r)), s.sockets,
      insert (r, p) s.subs⟩ r = ownRoom s r := rfl
  refine ⟨_, _, step_join hp r |>.trans (by rw [h1]), ?_, ?_, ?_, ?_⟩
  · rw [hm]
    exact Finset.mem_insert_self _ _
  · rw [hm, hown]
    rfl
  · intro hmem
    ext q
    simp only [Finset.mem_union, mem_ownRoom]
    constructor
    · rintro (hq | ⟨hqs, hrq⟩)
      · exact hq
      · exact hmem q hqs hrq
    · exact fun hq => Or.inl hq
  · intro hr
    rw [hm, hown, members_of_absent hr]
    simp [MAX_ROOM_SIZE]

/-- An instance of the amended C7: `B` joins room `"r"`, which holds `A` only. -/
theorem accepted_join_witness :
    Reachable loneState ∧ "B" ∈ loneState.sockets ∧
      ∃ s2 out, step loneState (.join "B" (.str "r")) = some (s2, out) ∧
        "B" ∈ s2.members (.str "r") ∧
        out = (⟨.room (.str "r"), s2.members (.str "r") ∪ ownRoom s2 (.str "r"), "room_status",
            .obj [("size", .num (s2.members (.str "r")).card),
              ("isRoomFull", .bool (decide (2 ≤ (s2.members (.str "r")).card)))]⟩ : Delivery) ::
          (if 2 ≤ (s2.members (.str "r")).card then
            [⟨.all, s2.sockets, "room_closed", .obj [("roomId", .str "r")]⟩]
          else []) ∧
        ((∀ q ∈ s2.sockets, JsVal.str "r" = JsVal.str q → q ∈ s2.members (.str "r")) →
          s2.members (.str "r") ∪ ownRoom s2 (.str "r") = s2.members (.str "r")) ∧
        (MapData.has loneState.rooms (.str "r") = false →
          s2.members (.str "r") = {"B"} ∧
            out = [⟨.room (.str "r"), {"B"} ∪ ownRoom s2 (.str "r"), "room_status",
              .obj [("size", .num 1), ("isRoomFull", .bool false)]⟩]) :=
  ⟨loneState_reachable, by decide,
    accepted_join loneState loneState_reachable "B" (by decide) (.str "r") (by decide)⟩

/-- C8, last member leaving frees the room: in every reachable state where
`p` is the only member of room `r`, the disconnection of `p` is handled,
leaves `r` absent from `rooms` and emits `room_available` with `{ roomId: r }`
to every socket still connected; a `join` of `r` from any connected socket `q`
right after is accepted as for a new room: `q` is the single member of `r` and
the only message is `room_status` with `{ size: 1, isRoomFull: false }`, which
`q` receives (it is handed to `q` and to the connected socket whose id is `r`,
if there is one). -/
theorem last_member_leaves (s : State) (h : Reachable s) (r : RoomId) (p : SocketId)
    (hm : s.members r = {p}) :
    ∃ s1 out1, step s (.disconnect p) = some (s1, out1) ∧
      MapData.has s1.rooms r = false ∧ s1.sockets = s.sockets.erase p ∧
      (⟨.all, s1.sockets, "room_available", .obj [("roomId", r)]⟩ : Delivery) ∈ out1 ∧
      ∀ q ∈ s1.sockets, ∃ s2 d, step s1 (.join q r) = some (s2, [d]) ∧
        d = ⟨.room r, {q} ∪ ownRoom s1 r, "room_status",
          .obj [("size", .num 1), ("isRoomFull", .bool false)]⟩ ∧
        q ∈ d.recipients ∧ s2.members r = {q} := by
  have hinv := inv_of_reachable h
  have hpm : p ∈ s.members r := by simp [hm]
  have hps := connected_of_member hinv hpm
  have hinv1 := inv_disconnect hinv p
  have hm1 := members_disconnect hinv p r
  rw [hm, Finset.erase_singleton] at hm1
  have habs : MapData.has (s.rooms.map (leaveEntry p)) r = false := by
    cases hhas : MapData.has (s.rooms.map (leaveEntry p)) r
    · rfl
    · exact absurd hm1 (members_ne_empty hinv1 hhas)
  refine ⟨_, _, step_disconnect hinv hps, habs, rfl, ?_, ?_⟩
  · have hget := get_of_mem_members hpm
    rw [hm] at hget
    refine mem_leaveEmits (MapData.mem_of_get hget) ?_
    simp [leaveEmit, ioEmit, leaveAll, roomRef]
  · intro q hq
    have hacc : ¬ (MapData.has (State.rooms ⟨s.rooms.map (leaveEntry p), s.sockets.erase p,
        s.subs.filter (fun x => x.2 ≠ p)⟩) r = true ∧
        MAX_ROOM_SIZE ≤ (State.members ⟨s.rooms.map (leaveEntry p), s.sockets.erase p,
          s.subs.filter (fun x => x.2 ≠ p)⟩ r).card) := by
      simp [habs]
    have hj := onJoin_accept_inv hinv1 hq hacc
    rw [hm1] at hj
    simp only [insert_emptyc_eq, Finset.card_singleton, MAX_ROOM_SIZE, Nat.cast_one] at hj
    refine ⟨_, _, (step_join hq r).trans (by rw [hj]; rfl), rfl, ?_, ?_⟩
    · exact Finset.mem_union_left _ (Finset.mem_singleton_self q)
    · simp [State.members, MapData.get_set_self]

/-- An instance of C8: `A`, alone in room `"r"`, disconnects. -/
theorem last_member_leaves_witness :
    Reachable loneState ∧ loneState.members (.str "r") = {"A"} ∧
      ∃ s1 out1, step loneState (.disconnect "A") = some (s1, out1) ∧
        MapData.has s1.rooms (.str "r") = false ∧ s1.sockets = loneState.sockets.erase "A" ∧
        (⟨.all, s1.sockets, "room_available", .obj [("roomId", .str "r")]⟩ : Delivery) ∈ out1 ∧
        ∀ q ∈ s1.sockets, ∃ s2 d, step s1 (.join q (.str "r")) = some (s2, [d]) ∧
          d = ⟨.room (.str "r"), {q} ∪ ownRoom s1 (.str "r"), "room_status",
            .obj [("size", .num 1), ("isRoomFull", .bool false)]⟩ ∧
          q ∈ d.recipients ∧ s2.members (.str "r") = {q} :=
  ⟨loneState_reachable, by decide,
    last_member_leaves loneState loneState_reachable (.str "r") "A" (by decide)⟩

/-- C9 as stated fails: `A` and `B` are the members of the room named `"C"`,
the socket id of the connected socket `C`; when `A` disconnects, the
`room_status` is handed to the remaining member `B` and also to `C`, which is
not a member. -/
theorem shrink_status_reaches_named_socket :
    Reachable cornerState ∧ "A" ∈ cornerState.members (.str "C") ∧
      "B" ∈ cornerState.members (.str "C") ∧
      (cornerState.members (.str "C")).erase "A" = {"B"} ∧
      step cornerState (.disconnect "A") =
        some (⟨[some (.str "C", {"B"})], {"C", "B"}, {(.str "C", "B")}⟩,
          [⟨.room (.str "C"), {"C", "B"}, "room_status",
            .obj [("size", .num 1), ("isRoomFull", .bool false)]⟩]) ∧
      "C" ∉ ({"B"} : Finset SocketId) :=
  ⟨cornerState_reachable, by decide, by decide, by decide, rfl, by decide⟩

/-- C9, amended: in every reachable state where `p` is a member of room `r`
together with another member, the disconnection of `p` is handled, keeps `r`
in `rooms` with `p` removed, and emits `room_status` with
`{ size, isRoomFull: false }`, `size` being the remaining member count, handed
to the remaining members of `r` and to no other socket except the connected
socket whose id is `r`, if there is one; when `r` is the id of no connected
socket outside the remaining members, it is handed to exactly the remaining
members.  That is the only emission addressed to room `r`, nothing is handed
to `p`, and every `room_status` emitted by a disconnection carries
`isRoomFull: false`, although the code computes the field as
`clients.size >= MAX_ROOM_SIZE`. -/
theorem shrinking_room (s : State) (h : Reachable s) (r : RoomId) (p q : SocketId)
    (hp : p ∈ s.members r) (hq : q ∈ s.members r) (hqp : q ≠ p) :
    ∃ s1 out1, step s (.disconnect p) = some (s1, out1) ∧
      MapData.has s1.rooms r = true ∧ s1.members r = (s.members r).erase p ∧
      (⟨.room r, (s.members r).erase p ∪ ownRoom s1 r, "room_status",
        .obj [("size", .num ((s.members r).erase p).card), ("isRoomFull", .bool false)]⟩ :
          Delivery) ∈ out1 ∧
      (∀ d ∈ out1, d.target = .room r →
        d = ⟨.room r, (s.members r).erase p ∪ ownRoom s1 r, "room_status",
          .obj [("size", .num ((s.members r).erase p).card), ("isRoomFull", .bool false)]⟩) ∧
      ((∀ q ∈ s1.sockets, r = JsVal.str q → q ∈ s1.members r) →
        (s.members r).erase p ∪ ownRoom s1 r = (s.members r).erase p) ∧
      (∀ d ∈ out1, p ∉ d.recipients) ∧
      (∀ d ∈ out1, d.event = "room_status" →
        ∃ n : Nat, d.payload = .obj [("size", .num n), ("isRoomFull", .bool false)]) := by
  have hinv := inv_of_reachable h
  have hps := connected_of_member hinv hp
  have hm1 := members_disconnect hinv p r
  have hq1 : q ∈ (s.members r).erase p := Finset.mem_erase.2 ⟨hqp, hq⟩
  have hsmall : ∀ k v, some (k, v) ∈ s.rooms → p ∈ v →
      decide ((v.erase p).card ≥ MAX_ROOM_SIZE) = false := by
    intro k v hmem hpv
    have h2 := (hinv.size k v hmem).2
    have h3 := Finset.card_erase_of_mem hpv
    simp only [MAX_ROOM_SIZE] at h2 ⊢
    simp only [ge_iff_le, decide_eq_false_iff_not, not_le]
    omega
  have hget := get_of_mem_members hp
  have hmem := MapData.mem_of_get hget
  have hcard : ¬ ((s.members r).erase p).card = 0 := by
    intro h0
    rw [Finset.card_eq_zero] at h0
    simp [h0] at hq1
  have hemit : leaveEmit (leaveAll s p) p (some (r, s.members r)) =
      [⟨.room r, (s.members r).erase p ∪ ownRoom (leaveAll s p) r, "room_status",
        .obj [("size", .num ((s.members r).erase p).card), ("isRoomFull", .bool false)]⟩] := by
    simp only [leaveEmit, hp, if_true, hcard, if_false, ioToEmit, inRoom_leaveAll hinv,
      hsmall r _ hmem hp, roomStatus]
  have hown : ownRoom ⟨s.rooms.map (leaveEntry p), s.sockets.erase p,
      s.subs.filter (fun x => x.2 ≠ p)⟩ r = ownRoom (leaveAll s p) r := rfl
  refine ⟨_, _, step_disconnect hinv hps, ?_, hm1, ?_, ?_, ?_, ?_, ?_⟩
  · cases hhas : MapData.has (s.rooms.map (leaveEntry p)) r
    · have := members_of_absent (s := ⟨s.rooms.map (leaveEntry p), s.sockets.erase p,
        s.subs.filter (fun x => x.2 ≠ p)⟩) hhas
      rw [hm1] at this
      simp [this] at hq1
    · rfl
  · rw [hown]
    exact mem_leaveEmits hmem (by rw [hemit]; exact List.mem_singleton.2 rfl)
  · intro d hd htarget
    rcases of_mem_leaveEmits hd with ⟨e, he, hde⟩
    rcases e with _ | ⟨k, v⟩
    · simp [leaveEmit] at hde
    · by_cases hpv : p ∈ v
      · by_cases hc : (v.erase p).card = 0
        · simp only [leaveEmit, hpv, if_true, hc, List.mem_singleton] at hde
          subst hde
          simp [ioEmit] at htarget
        · have hde0 := hde
          simp only [leaveEmit, hpv, if_true, hc, if_false, List.mem_singleton] at hde
          have hk : k = r := by
            subst hde
            simpa [ioToEmit] using htarget
          subst hk
          have hv : v = s.members k := by
            have := MapData.get_of_mem hinv.wf he
            rw [hget] at this
            exact (Option.some.inj this).symm
          subst hv
          rw [hemit] at hde0
          rw [hown]
          exact List.mem_singleton.1 hde0
      · simp [leaveEmit, hpv] at hde
  · intro hmem2
    ext x
    simp only [Finset.mem_union, mem_ownRoom]
    constructor
    · rintro (hx | ⟨hxs, hrx⟩)
      · exact hx
      · have := hmem2 x hxs hrx
        rwa [hm1] at this
    · exact fun hx => Or.inl hx
  · intro d hd
    rcases of_mem_leaveEmits hd with ⟨e, he, hde⟩
    rcases e with _ | ⟨k, v⟩
    · simp [leaveEmit] at hde
    · by_cases hpv : p ∈ v
      · by_cases hc : (v.erase p).card = 0
        · simp only [leaveEmit, hpv, if_true, hc, List.mem_singleton] at hde
          subst hde
          simp [ioEmit, leaveAll]
        · simp only [leaveEmit, hpv, if_true, hc, if_false, List.mem_singleton] at hde
          subst hde
          simp only [ioToEmit, inRoom_leaveAll hinv, Finset.mem_union, not_or]
          exact ⟨Finset.not_mem_erase p _, not_mem_ownRoom_leaveAll s p k⟩
      · simp [leaveEmit, hpv] at hde
  · intro d hd hev
    rcases of_mem_leaveEmits hd with ⟨e, he, hde⟩
    rcases e with _ | ⟨k, v⟩
    · simp [leaveEmit] at hde
    · by_cases hpv : p ∈ v
      · by_cases hc : (v.erase p).card = 0
        · simp only [leaveEmit, hpv, if_true, hc, List.mem_singleton] at hde
          subst hde
          simp [ioEmit] at hev
        · simp only [leaveEmit, hpv, if_true, hc, if_false, List.mem_singleton] at hde
          subst hde
          exact ⟨(v.erase p).card, by simp only [ioToEmit, hsmall k v he hpv, roomStatus]⟩
      · simp [leaveEmit, hpv] at hde

/-- An instance of the amended C9: `A` disconnects from room `"r"`, which it shares with `B`. -/
theorem shrinking_room_witness :
    Reachable sampleState ∧ "A" ∈ sampleState.members (.str "r") ∧
      "B" ∈ sampleState.members (.str "r") ∧
      ∃ s1 out1, step sampleState (.disconnect "A") = some (s1, out1) ∧
        MapData.has s1.rooms (.str "r") = true ∧
        s1.members (.str "r") = (sampleState.members (.str "r")).erase "A" ∧
        (⟨.room (.str "r"),
          (sampleState.members (.str "r")).erase "A" ∪ ownRoom s1 (.str "r"), "room_status",
          .obj [("size", .num ((sampleState.members (.str "r")).erase "A").card),
            ("isRoomFull", .bool false)]⟩ : Delivery) ∈ out1 ∧
        (∀ d ∈ out1, d.target = .room (.str "r") →
          d = ⟨.room (.str "r"),
            (sampleState.members (.str "r")).erase "A" ∪ ownRoom s1 (.str "r"), "room_status",
            .obj [("size", .num ((sampleState.members (.str "r")).erase "A").card),
              ("isRoomFull", .bool false)]⟩) ∧
        ((∀ q ∈ s1.sockets, JsVal.str "r" = JsVal.str q → q ∈ s1.members (.str "r")) →
          (sampleState.members (.str "r")).erase "A" ∪ ownRoom s1 (.str "r") =
            (sampleState.members (.str "r")).erase "A") ∧
        (∀ d ∈ out1, "A" ∉ d.recipients) ∧
        (∀ d ∈ out1, d.event = "room_status" →
          ∃ n : Nat, d.payload = .obj [("size", .num n), ("isRoomFull", .bool false)]) :=
  ⟨sampleState_reachable, by decide, by decide,
    shrinking_room sampleState sampleState_reachable (.str "r") "A" "B" (by decide) (by decide)
      (by decide)⟩

/-- C10, disconnection of a non-member: in every state, when `p` is in the
member set of no record of `rooms`, handling the disconnection of `p` returns,
leaves `rooms` exactly as it is and emits nothing. -/
theorem disconnect_non_member (s : State) (p : SocketId)
    (hp : ∀ r clients, some (r, clients) ∈ s.rooms → p ∉ clients) :
    ∃ s1, handle s (.disconnect p) = .ok (s1, []) ∧ s1.rooms = s.rooms := by
  refine ⟨leaveAll s p, ?_, rfl⟩
  simp only [handle, onDisconnect]
  rw [forEachFrom_of_not_mem p _ 0 (leaveAll s p) [] (by simpa [leaveAll] using hp)]

/-- An instance of C10: `C`, in no room, disconnects. -/
theorem disconnect_non_member_witness :
    (∀ r clients, some (r, clients) ∈ sampleState.rooms → "C" ∉ clients) ∧
      ∃ s1, handle sampleState (.disconnect "C") = .ok (s1, []) ∧
        s1.rooms = sampleState.rooms :=
  ⟨sampleState_C_in_no_room, disconnect_non_member sampleState "C" sampleState_C_in_no_room⟩

/-! ## Leaving every room -/

theorem MapData.get_map_leaveEntry_eq (p : SocketId) {m : MapData} (hwf : MapData.WF m)
    (k : RoomId) :
    MapData.get (m.map (leaveEntry p)) k =
      match MapData.get m k with
      | none => none
      | some v => (leaveEntry p (some (k, v))).map Prod.snd := by
  induction m with
  | nil => simp [MapData.get]
  | cons e es ih =>
    rcases e with _ | ⟨k1, v1⟩
    · have hwf2 : MapData.WF es := by simpa [MapData.WF, MapData.keys] using hwf
      simpa [leaveEntry, MapData.get] using ih hwf2
    · simp only [MapData.WF, MapData.keys, List.nodup_cons] at hwf
      by_cases hk : k1 = k
      · subst hk
        have hnone : MapData.get (es.map (leaveEntry p)) k1 = none :=
          MapData.get_eq_none_of_not_mem_keys
            (fun hmem => hwf.1 ((MapData.keys_map_leaveEntry p es).subset hmem))
        by_cases hp : p ∈ v1
        · by_cases hcard : (v1.erase p).card = 0
          · rw [List.map_cons, leaveEntry_removed hp hcard]
            simp [MapData.get, hnone, leaveEntry_removed hp hcard]
          · rw [List.map_cons, leaveEntry_shrunk hp hcard]
            simp [MapData.get, leaveEntry_shrunk hp hcard]
        · rw [List.map_cons, leaveEntry_kept hp]
          simp [MapData.get, leaveEntry_kept hp]
      · have hih := ih hwf.2
        by_cases hp : p ∈ v1
        · by_cases hcard : (v1.erase p).card = 0
          · rw [List.map_cons, leaveEntry_removed hp hcard]
            simpa [MapData.get, hk] using hih
          · rw [List.map_cons, leaveEntry_shrunk hp hcard]
            simpa [MapData.get, hk] using hih
        · rw [List.map_cons, leaveEntry_kept hp]
          simpa [MapData.get, hk] using hih

theorem countP_about_leaveEmit (s : State) (p : SocketId) (k r : RoomId) (v : Clients) :
    (leaveEmit s p (some (k, v))).countP (fun d => d.about r) =
      if k = r ∧ p ∈ v then 1 else 0 := by
  by_cases hp : p ∈ v
  · by_cases hc : (v.erase p).card = 0
    · by_cases hk : k = r
      · simp [leaveEmit, hp, hc, hk, Delivery.about, ioEmit]
      · simp [leaveEmit, hp, hc, hk, Delivery.about, ioEmit, roomRef]
    · by_cases hk : k = r
      · simp only [leaveEmit, hp, if_true, hc, if_false, hk]
        simp [Delivery.about, ioToEmit]
      · simp only [leaveEmit, hp, if_true, hc, if_false, hk]
        simp [Delivery.about, ioToEmit, roomRef, roomStatus, hk]
  · simp [leaveEmit, hp]

theorem countP_about_leaveEmits (s : State) (p : SocketId) {m : MapData}
    (hwf : MapData.WF m) (r : RoomId) :
    (leaveEmits s p m).countP (fun d => d.about r) =
      match MapData.get m r with
      | none => 0
      | some v => if p ∈ v then 1 else 0 := by
  induction m with
  | nil => simp [leaveEmits, MapData.get]
  | cons e es ih =>
    rcases e with _ | ⟨k, v⟩
    · have hwf2 : MapData.WF es := by simpa [MapData.WF, MapData.keys] using hwf
      simpa [leaveEmits, leaveEmit, MapData.get] using ih hwf2
    · simp only [MapData.WF, MapData.keys, List.nodup_cons] at hwf
      simp only [leaveEmits, List.countP_append, countP_about_leaveEmit, ih hwf.2]
      by_cases hk : k = r
      · subst hk
        simp [MapData.get, MapData.get_eq_none_of_not_mem_keys hwf.1]
      · simp [MapData.get, hk]

/-- C11, leave removes the participant everywhere: in every state whose
`rooms` holds each key once (what a `Map` guarantees), also when `p` is in
several rooms, handling the disconnection of `p` returns; the new table is the
old one with every record treated by the callback, in order, and the emissions
are those of the records, in order, so no record is skipped.  Afterwards `p`
is in no record.  A room that held only `p` is absent and gave exactly one
emission, `room_available` with `{ roomId }`; a room that held `p` and others
is kept without `p` and gave exactly one emission, `room_status`; a room that
did not hold `p` is unchanged and gave none. -/
theorem leave_everywhere (s : State) (p : SocketId) (hwf : MapData.WF s.rooms) :
    ∃ s1 out, handle s (.disconnect p) = .ok (s1, out) ∧
      s1.rooms = s.rooms.map (leaveEntry p) ∧
      out = leaveEmits (leaveAll s p) p s.rooms ∧
      (∀ r clients, some (r, clients) ∈ s1.rooms → p ∉ clients) ∧
      (∀ r clients, some (r, clients) ∈ s.rooms →
        (clients = {p} →
          MapData.has s1.rooms r = false ∧
          (⟨.all, s1.sockets, "room_available", .obj [("roomId", r)]⟩ : Delivery) ∈ out ∧
          out.countP (fun d => d.about r) = 1) ∧
        (p ∈ clients → clients ≠ {p} →
          MapData.get s1.rooms r = some (clients.erase p) ∧
          (⟨.room r, inRoom s1 r, "room_status",
            .obj [("size", .num (clients.erase p).card),
              ("isRoomFull", .bool (decide (MAX_ROOM_SIZE ≤ (clients.erase p).card)))]⟩ :
              Delivery) ∈ out ∧
          out.countP (fun d => d.about r) = 1) ∧
        (p ∉ clients →
          MapData.get s1.rooms r = some clients ∧
          out.countP (fun d => d.about r) = 0)) := by
  refine ⟨_, _, handle_disconnect_eq p hwf, rfl, rfl, ?_, ?_⟩
  · intro r clients hmem
    rcases MapData.mem_map_leaveEntry hmem with ⟨v, _, ⟨hp, he⟩ | ⟨_, he, _⟩⟩
    · exact he ▸ hp
    · rw [he]
      exact Finset.not_mem_erase p v
  · intro r clients hmem
    have hget := MapData.get_of_mem hwf hmem
    have hget1 := MapData.get_map_leaveEntry_eq p hwf r
    have hcount := countP_about_leaveEmits (leaveAll s p) p hwf r
    rw [hget] at hget1 hcount
    simp only at hget1 hcount
    refine ⟨?_, ?_, ?_⟩
    · intro hc
      subst hc
      have hp : p ∈ ({p} : Clients) := Finset.mem_singleton_self p
      have hcard : (({p} : Clients).erase p).card = 0 := by simp
      rw [leaveEntry_removed hp hcard] at hget1
      refine ⟨by simp [MapData.has, hget1], ?_, by simpa [hp] using hcount⟩
      refine mem_leaveEmits hmem ?_
      simp only [leaveEmit, hp, if_true, hcard, List.mem_singleton]
      rfl
    · intro hp hne
      have hcard : ¬ (clients.erase p).card = 0 := by
        intro h0
        rcases (Finset.erase_eq_empty_iff clients p).1 (Finset.card_eq_zero.1 h0) with h1 | h1
        · simp [h1] at hp
        · exact hne h1
      rw [leaveEntry_shrunk hp hcard] at hget1
      refine ⟨by simpa using hget1, ?_, by simpa [hp] using hcount⟩
      refine mem_leaveEmits hmem ?_
      simp only [leaveEmit, hp, if_true, hcard, if_false, List.mem_singleton]
      rfl
    · intro hp
      rw [leaveEntry_kept hp] at hget1
      exact ⟨by simpa using hget1, by simpa [hp] using hcount⟩

theorem multiState_wf : MapData.WF multiState.rooms := by
  unfold MapData.WF
  decide

/-- An instance of C11: `A` disconnects while alone in room `"r"` and with `B`
in room `"q"`; room `"z"` does not hold `A`. -/
theorem leave_everywhere_witness :
    MapData.WF multiState.rooms ∧
      ∃ s1 out, handle multiState (.disconnect "A") = .ok (s1, out) ∧
        s1.rooms = multiState.rooms.map (leaveEntry "A") ∧
        out = leaveEmits (leaveAll multiState "A") "A" multiState.rooms ∧
        (∀ r clients, some (r, clients) ∈ s1.rooms → "A" ∉ clients) ∧
        (∀ r clients, some (r, clients) ∈ multiState.rooms →
          (clients = {"A"} →
            MapData.has s1.rooms r = false ∧
            (⟨.all, s1.sockets, "room_available", .obj [("roomId", r)]⟩ : Delivery) ∈ out ∧
            out.countP (fun d => d.about r) = 1) ∧
          ("A" ∈ clients → clients ≠ {"A"} →
            MapData.get s1.rooms r = some (clients.erase "A") ∧
            (⟨.room r, inRoom s1 r, "room_status",
              .obj [("size", .num (clients.erase "A").card),
                ("isRoomFull", .bool (decide (MAX_ROOM_SIZE ≤ (clients.erase "A").card)))]⟩ :
                Delivery) ∈ out ∧
            out.countP (fun d => d.about r) = 1) ∧
          ("A" ∉ clients →
            MapData.get s1.rooms r = some clients ∧
            out.countP (fun d => d.about r) = 0)) :=
  ⟨multiState_wf, leave_everywhere multiState "A" multiState_wf⟩

/-! ## Traffic of a room along a run -/

theorem joinRejected_iff (s : State) (p : SocketId) (r : RoomId) :
    joinRejected s p r = true ↔
      (MapData.has s.rooms r = true ∧ MAX_ROOM_SIZE ≤ (s.members r).card) := by
  constructor
  · intro h
    by_contra hacc
    rw [joinRejected, onJoin_accept hacc] at h
    have h2 := of_decide_eq_true h
    simp only [ioToEmit, socketEmit] at h2
    have h3 := congrArg (fun l => l.head?.map Delivery.target) h2
    simp at h3
  · intro h
    simp [joinRejected, onJoin_full h.1 h.2]

theorem onOffer_ok {s : State} {p : SocketId} {data : Data} {res : State × List Delivery}
    (h : onOffer s p data = .ok res) :
    ∃ k payload, res = (s, [socketToEmit s p k "offer" payload]) := by
  rcases data with v | fields
  · cases v <;> simp [onOffer, Data.prop, bind, Except.bind, pure, Except.pure] at h <;>
      exact ⟨_, _, h.symm⟩
  · rw [onOffer_obj] at h
    cases h
    exact ⟨_, _, rfl⟩

theorem onAnswer_ok {s : State} {p : SocketId} {data : Data} {res : State × List Delivery}
    (h : onAnswer s p data = .ok res) :
    ∃ k payload, res = (s, [socketToEmit s p k "answer" payload]) := by
  rcases data with v | fields
  · cases v <;> simp [onAnswer, Data.prop, bind, Except.bind, pure, Except.pure] at h <;>
      exact ⟨_, _, h.symm⟩
  · rw [onAnswer_obj] at h
    cases h
    exact ⟨_, _, rfl⟩

theorem onIceCandidate_ok {s : State} {p : SocketId} {data : Data}
    {res : State × List Delivery} (h : onIceCandidate s p data = .ok res) :
    ∃ k payload, res = (s, [socketToEmit s p k "ice_candidate" payload]) := by
  rcases data with v | fields
  · cases v <;> simp [onIceCandidate, Data.prop, bind, Except.bind, pure, Except.pure] at h <;>
      exact ⟨_, _, h.symm⟩
  · rw [onIceCandidate_obj] at h
    cases h
    exact ⟨_, _, rfl⟩

theorem not_mem_ownRoom_of_ne (s : State) {r : RoomId} {Z : SocketId}
    (hZr : r ≠ JsVal.str Z) : Z ∉ ownRoom s r :=
  fun hmem => hZr (mem_ownRoom.1 hmem).2

/-- A relay emission addressed to room `r` does not reach a socket that is not
a member of `r` and whose id is not `r`, in a state satisfying the
invariant. -/
theorem relay_keeps_out {s : State} (hinv : Inv s) {r : RoomId} {Z : SocketId}
    (hZ : Z ∉ s.members r) (hZr : r ≠ JsVal.str Z) (p : SocketId) (k : RoomId)
    (event : String) (payload : Data)
    (d : Delivery) (hd : d ∈ [socketToEmit s p k event payload])
    (ht : d.target = .room r ∨ ∃ q, d.target = .roomExcept r q) : Z ∉ d.recipients := by
  simp only [List.mem_singleton] at hd
  subst hd
  simp only [socketToEmit] at ht ⊢
  rcases ht with ht | ⟨q, ht⟩
  · cases ht
  · simp only [Target.roomExcept.injEq] at ht
    rw [ht.1, inRoom_eq_members hinv]
    intro hmem
    rcases Finset.mem_union.1 (Finset.mem_of_mem_erase hmem) with hm | hm
    · exact hZ hm
    · exact not_mem_ownRoom_of_ne s hZr hm

/-- One step keeps a non-member out of room `r` and hands it nothing that is
addressed to `r`, unless the step is an accepted `join` of `r` from it. -/
theorem step_keeps_out {s : State} (hinv : Inv s) {r : RoomId} {Z : SocketId}
    (hZ : Z ∉ s.members r) (hZr : r ≠ JsVal.str Z) {e : Event} {s1 : State}
    {out : List Delivery}
    (hstep : step s e = some (s1, out))
    (hjoin : e = .join Z r → joinRejected s Z r = true) :
    Z ∉ s1.members r ∧
      ∀ d ∈ out, (d.target = .room r ∨ ∃ q, d.target = .roomExcept r q) → Z ∉ d.recipients := by
  have hstep0 := hstep
  unfold step at hstep
  cases hen : enabled s e
  · simp [hen] at hstep
  · simp only [hen, if_true] at hstep
    cases e with
    | connection p =>
      simp only [handle, Option.some.injEq, Prod.mk.injEq] at hstep
      rcases hstep with ⟨hs, ho⟩
      subst hs; subst ho
      exact ⟨hZ, fun d hd => by simp at hd⟩
    | join p k =>
      have hp : p ∈ s.sockets := by simpa [enabled] using hen
      simp only [handle, Option.some.injEq] at hstep
      by_cases hfull : MapData.has s.rooms k = true ∧ MAX_ROOM_SIZE ≤ (s.members k).card
      · rw [onJoin_full hfull.1 hfull.2, Prod.mk.injEq] at hstep
        rcases hstep with ⟨hs, ho⟩
        subst hs; subst ho
        refine ⟨hZ, fun d hd ht => ?_⟩
        simp only [List.mem_singleton] at hd
        subst hd
        rcases ht with ht | ⟨q, ht⟩ <;> simp [socketEmit] at ht
      · have hne : ¬ (p = Z ∧ k = r) := by
          rintro ⟨rfl, rfl⟩
          exact hfull ((joinRejected_iff s p k).1 (hjoin rfl))
        rw [onJoin_accept_inv hinv hp hfull, Prod.mk.injEq] at hstep
        rcases hstep with ⟨hs, ho⟩
        subst hs; subst ho
        have hkeep : k = r → Z ∉ insert p (s.members r) := by
          intro hk
          simp only [Finset.mem_insert, not_or]
          exact ⟨fun hzp => hne ⟨hzp.symm, hk⟩, hZ⟩
        refine ⟨?_, fun d hd ht => ?_⟩
        · rw [members_set]
          by_cases hk : r = k
          · subst hk
            simpa using hkeep rfl
          · simpa [hk] using hZ
        · simp only [List.mem_cons] at hd
          rcases hd with hd | hd
          · subst hd
            rcases ht with ht | ⟨q, ht⟩
            · simp only [Target.room.injEq] at ht
              subst ht
              simp only [Finset.mem_union, not_or]
              exact ⟨hkeep rfl, not_mem_ownRoom_of_ne s hZr⟩
            · simp at ht
          · split at hd
            · simp only [List.mem_singleton] at hd
              subst hd
              rcases ht with ht | ⟨q, ht⟩ <;> simp at ht
            · simp at hd
    | offer p data =>
      simp only [handle] at hstep
      cases hr : onOffer s p data with
      | error x => simp [hr] at hstep
      | ok res =>
        simp only [hr, Option.some.injEq] at hstep
        rcases onOffer_ok hr with ⟨k, payload, hres⟩
        rw [hres, Prod.mk.injEq] at hstep
        rcases hstep with ⟨hs, ho⟩
        subst hs; subst ho
        exact ⟨hZ, fun d hd ht => relay_keeps_out hinv hZ hZr p k _ payload d hd ht⟩
    | answer p data =>
      simp only [handle] at hstep
      cases hr : onAnswer s p data with
      | error x => simp [hr] at hstep
      | ok res =>
        simp only [hr, Option.some.injEq] at hstep
        rcases onAnswer_ok hr with ⟨k, payload, hres⟩
        rw [hres, Prod.mk.injEq] at hstep
        rcases hstep with ⟨hs, ho⟩
        subst hs; subst ho
        exact ⟨hZ, fun d hd ht => relay_keeps_out hinv hZ hZr p k _ payload d hd ht⟩
    | ice_candidate p data =>
      simp only [handle] at hstep
      cases hr : onIceCandidate s p data with
      | error x => simp [hr] at hstep
      | ok res =>
        simp only [hr, Option.some.injEq] at hstep
        rcases onIceCandidate_ok hr with ⟨k, payload, hres⟩
        rw [hres, Prod.mk.injEq] at hstep
        rcases hstep with ⟨hs, ho⟩
        subst hs; subst ho
        exact ⟨hZ, fun d hd ht => relay_keeps_out hinv hZ hZr p k _ payload d hd ht⟩
    | disconnect p =>
      rw [handle_disconnect_eq p hinv.wf] at hstep
      simp only [Option.some.injEq, Prod.mk.injEq] at hstep
      rcases hstep with ⟨hs, ho⟩
      subst hs; subst ho
      refine ⟨?_, fun d hd ht => ?_⟩
      · rw [members_disconnect hinv]
        exact fun hmem => hZ (Finset.mem_of_mem_erase hmem)
      · rcases of_mem_leaveEmits hd with ⟨e, _, hde⟩
        rcases e with _ | ⟨k, v⟩
        · simp [leaveEmit] at hde
        · by_cases hpv : p ∈ v
          · by_cases hc : (v.erase p).card = 0
            · simp only [leaveEmit, hpv, if_true, hc, List.mem_singleton] at hde
              subst hde
              rcases ht with ht | ⟨q, ht⟩ <;> simp [ioEmit] at ht
            · simp only [leaveEmit, hpv, if_true, hc, if_false, List.mem_singleton] at hde
              subst hde
              rcases ht with ht | ⟨q, ht⟩
              · simp only [ioToEmit, Target.room.injEq] at ht
                subst ht
                simp only [ioToEmit, inRoom_leaveAll hinv, Finset.mem_union, not_or]
                exact ⟨fun hmem => hZ (Finset.mem_of_mem_erase hmem),
                  not_mem_ownRoom_of_ne _ hZr⟩
              · simp [ioToEmit] at ht
          · simp [leaveEmit, hpv] at hde

theorem run_keeps_out {r : RoomId} {Z : SocketId} (hZr : r ≠ JsVal.str Z) (es : List Event) :
    ∀ (s : State), Inv s → Z ∉ s.members r → ∀ (s1 : State) (out : List Delivery),
      runOut s es = some (s1, out) → neverJoins Z r s es = true →
      Z ∉ s1.members r ∧
        ∀ d ∈ out, (d.target = .room r ∨ ∃ q, d.target = .roomExcept r q) →
          Z ∉ d.recipients := by
  induction es with
  | nil =>
    intro s _ hZ s1 out hrun _
    simp only [runOut, Option.some.injEq, Prod.mk.injEq] at hrun
    rcases hrun with ⟨hs, ho⟩
    subst hs; subst ho
    exact ⟨hZ, fun d hd => by simp at hd⟩
  | cons e es ih =>
    intro s hinv hZ s1 out hrun hnever
    simp only [runOut] at hrun
    simp only [neverJoins, Bool.and_eq_true] at hnever
    cases hstep : step s e with
    | none => simp [hstep] at hrun
    | some res =>
      rcases res with ⟨t, o1⟩
      simp only [hstep] at hrun hnever
      cases hrest : runOut t es with
      | none => simp [hrest] at hrun
      | some res2 =>
        rcases res2 with ⟨t2, o2⟩
        simp only [hrest, Option.some.injEq, Prod.mk.injEq] at hrun
        rcases hrun with ⟨hs, ho⟩
        subst hs; subst ho
        have h1 := step_keeps_out hinv hZ hZr hstep (fun he => by simpa [he] using hnever.1)
        have h2 := ih t (inv_step hinv hstep) h1.1 t2 o2 hrest hnever.2
        refine ⟨h2.1, fun d hd ht => ?_⟩
        rcases List.mem_append.1 hd with hd | hd
        · exact h1.2 d hd ht
        · exact h2.2 d hd ht

/-- C12 as stated fails: `A` and `B` are the members of the room named `"C"`,
the socket id of the connected socket `C`; `C` is not a member and its `join`
of `"C"` is rejected with `room_full`; in the run that follows, made of one
`offer` from `A` naming `"C"`, `C` joins nothing and yet the `offer` addressed
to room `"C"` is handed to `C`. -/
theorem rejected_named_socket_gets_traffic :
    Reachable cornerState ∧ "C" ∉ cornerState.members (.str "C") ∧
      joinRejected cornerState "C" (.str "C") = true ∧
      neverJoins "C" (.str "C") cornerState
        [.offer "A" (.obj [("roomId", .str "C"), ("sdp", .str "v=0"), ("type", .str "offer")])] =
        true ∧
      runOut cornerState
        [.offer "A" (.obj [("roomId", .str "C"), ("sdp", .str "v=0"), ("type", .str "offer")])] =
        some (cornerState, [⟨.roomExcept (.str "C") "A", {"C", "B"}, "offer",
          .obj [("sdp", .str "v=0"), ("type", .str "offer")]⟩]) ∧
      "C" ∈ ({"C", "B"} : Finset SocketId) :=
  ⟨cornerState_reachable, by decide, by decide, by decide, rfl, by decide⟩

/-- C12, amended: in every reachable state, when `Z` is not a member of room
`r`, `r` is not the socket id of `Z`, and the `join` of `r` from `Z` is
rejected with `room_full`, the state is unchanged, so `Z` is still not a
member; and along every later run in which every `join` of `r` from `Z` is
rejected, `Z` stays out of `r` and no emission addressed to room `r` (the
`room_status` of `r` and the `offer`, `answer` and `ice_candidate` relayed to
`r`) is handed to `Z`. -/
theorem rejected_gets_no_traffic (s : State) (h : Reachable s) (r : RoomId) (Z : SocketId)
    (hZ : Z ∉ s.members r) (hZr : r ≠ JsVal.str Z) (hrej : joinRejected s Z r = true) :
    handle s (.join Z r) =
        .ok (s, [⟨.socket Z, {Z}, "room_full", .obj [("roomId", r)]⟩]) ∧
      ∀ (es : List Event) (s1 : State) (out : List Delivery),
        runOut s es = some (s1, out) → neverJoins Z r s es = true →
        Z ∉ s1.members r ∧
          ∀ d ∈ out, (d.target = .room r ∨ ∃ q, d.target = .roomExcept r q) →
            Z ∉ d.recipients := by
  have hfull := (joinRejected_iff s Z r).1 hrej
  refine ⟨?_, fun es s1 out hrun hnever =>
    run_keeps_out hZr es s (inv_of_reachable h) hZ s1 out hrun hnever⟩
  simp only [handle]
  rw [onJoin_full hfull.1 hfull.2]
  rfl

/-- An instance of the amended C12: `C` is rejected from the full room `"r"`. -/
theorem rejected_gets_no_traffic_witness :
    Reachable sampleState ∧ "C" ∉ sampleState.members (.str "r") ∧
      JsVal.str "r" ≠ JsVal.str "C" ∧
      joinRejected sampleState "C" (.str "r") = true ∧
      (handle sampleState (.join "C" (.str "r")) =
          .ok (sampleState, [⟨.socket "C", {"C"}, "room_full", .obj [("roomId", .str "r")]⟩]) ∧
        ∀ (es : List Event) (s1 : State) (out : List Delivery),
          runOut sampleState es = some (s1, out) →
          neverJoins "C" (.str "r") sampleState es = true →
          "C" ∉ s1.members (.str "r") ∧
            ∀ d ∈ out, (d.target = .room (.str "r") ∨ ∃ q, d.target = .roomExcept (.str "r") q) →
              "C" ∉ d.recipients) :=
  ⟨sampleState_reachable, by decide, by decide, by decide,
    rejected_gets_no_traffic sampleState sampleState_reachable (.str "r") "C" (by decide)
      (by decide) (by decide)⟩

/-! ## Relay payloads and errors -/

/-- C13 as stated fails for `ice_candidate`: the inbound payload
`{ roomId: "r", candidate: "c1" }` from `A` is handed to `B` as the value
`"c1"` itself, which is not the object `{ candidate: "c1" }`. -/
theorem ice_candidate_payload_is_bare :
    handle sampleState
        (.ice_candidate "A" (.obj [("roomId", .str "r"), ("candidate", .str "c1")])) =
      .ok (sampleState,
        [⟨.roomExcept (.str "r") "A", {"B"}, "ice_candidate", .val (.str "c1")⟩]) ∧
      (Data.val (.str "c1") ≠ .obj [("candidate", .str "c1")]) :=
  ⟨rfl, by decide⟩

/-- C13, amended: in every state, an inbound `offer` or `answer` object with
properties `roomId`, `sdp` and `type` is emitted to the room as the object
`{ sdp, type }` with the same two values and without `roomId`; an inbound
`ice_candidate` object with properties `roomId` and `candidate` is emitted as
the value of `candidate` itself, not as an object holding it. -/
theorem relayed_payload_shape (s : State) (p : SocketId) (fields iceFields : List (String × JsVal))
    (r sdp type candidate : JsVal)
    (hr : fields.lookup "roomId" = some r) (hsdp : fields.lookup "sdp" = some sdp)
    (htype : fields.lookup "type" = some type)
    (hri : iceFields.lookup "roomId" = some r)
    (hcand : iceFields.lookup "candidate" = some candidate) :
    handle s (.offer p (.obj fields)) =
        .ok (s, [⟨.roomExcept r p, (inRoom s r).erase p, "offer",
          .obj [("sdp", sdp), ("type", type)]⟩]) ∧
      handle s (.answer p (.obj fields)) =
        .ok (s, [⟨.roomExcept r p, (inRoom s r).erase p, "answer",
          .obj [("sdp", sdp), ("type", type)]⟩]) ∧
      handle s (.ice_candidate p (.obj iceFields)) =
        .ok (s, [⟨.roomExcept r p, (inRoom s r).erase p, "ice_candidate",
          .val candidate⟩]) := by
  refine ⟨?_, ?_, ?_⟩
  · rw [handle_offer_obj s p fields hr, hsdp, htype]
    rfl
  · rw [handle_answer_obj s p fields hr, hsdp, htype]
    rfl
  · rw [handle_ice_candidate_obj s p iceFields hri, hcand]
    rfl

/-- An instance of the amended C13: `A` relays to room `"r"`. -/
theorem relayed_payload_shape_witness :
    handle sampleState
        (.offer "A" (.obj [("roomId", .str "r"), ("sdp", .str "v=0"), ("type", .str "offer")])) =
        .ok (sampleState, [⟨.roomExcept (.str "r") "A",
          (inRoom sampleState (.str "r")).erase "A", "offer",
          .obj [("sdp", .str "v=0"), ("type", .str "offer")]⟩]) ∧
      handle sampleState
        (.answer "A" (.obj [("roomId", .str "r"), ("sdp", .str "v=0"), ("type", .str "offer")])) =
        .ok (sampleState, [⟨.roomExcept (.str "r") "A",
          (inRoom sampleState (.str "r")).erase "A", "answer",
          .obj [("sdp", .str "v=0"), ("type", .str "offer")]⟩]) ∧
      handle sampleState
        (.ice_candidate "A" (.obj [("roomId", .str "r"), ("candidate", .str "c1")])) =
        .ok (sampleState, [⟨.roomExcept (.str "r") "A",
          (inRoom sampleState (.str "r")).erase "A", "ice_candidate", .val (.str "c1")⟩]) :=
  relayed_payload_shape sampleState "A"
    [("roomId", .str "r"), ("sdp", .str "v=0"), ("type", .str "offer")]
    [("roomId", .str "r"), ("candidate", .str "c1")]
    (.str "r") (.str "v=0") (.str "offer") (.str "c1") rfl rfl rfl rfl rfl

/-- C14 as stated fails: in a reachable state, an `offer` from the connected
socket `A` whose payload is `null` makes the handler throw a `TypeError`, and
the server has no next state. -/
theorem null_offer_throws :
    Reachable sampleState ∧ enabled sampleState (.offer "A" (.val .null)) = true ∧
      handle sampleState (.offer "A" (.val .null)) = .error .typeError ∧
      step sampleState (.offer "A" (.val .null)) = none :=
  ⟨sampleState_reachable, rfl, rfl, rfl⟩

/-- C14, amended: in every state, the `join` handler returns for any room id,
the `disconnect` handler returns, and the three relay handlers return for any
payload other than `null` and `undefined`, also a payload that is not an
object or lacks `roomId`; on the payloads `null` and `undefined` each relay
handler throws a `TypeError`. -/
theorem no_error_unless_nullish (s : State) (p : SocketId) (roomId : RoomId) (data : Data)
    (hu : data ≠ .val .undefined) (hn : data ≠ .val .null) :
    (∃ res, handle s (.join p roomId) = .ok res) ∧
      (∃ res, handle s (.disconnect p) = .ok res) ∧
      (∃ out, handle s (.offer p data) = .ok (s, out)) ∧
      (∃ out, handle s (.answer p data) = .ok (s, out)) ∧
      (∃ out, handle s (.ice_candidate p data) = .ok (s, out)) ∧
      (∀ nullish : Data, nullish = .val .undefined ∨ nullish = .val .null →
        handle s (.offer p nullish) = .error .typeError ∧
        handle s (.answer p nullish) = .error .typeError ∧
        handle s (.ice_candidate p nullish) = .error .typeError) := by
  refine ⟨⟨_, rfl⟩, ⟨_, rfl⟩, ?_, ?_, ?_, ?_⟩
  · rcases data with v | fields
    · cases v <;> first | exact absurd rfl hu | exact absurd rfl hn | exact ⟨_, rfl⟩
    · exact ⟨_, rfl⟩
  · rcases data with v | fields
    · cases v <;> first | exact absurd rfl hu | exact absurd rfl hn | exact ⟨_, rfl⟩
    · exact ⟨_, rfl⟩
  · rcases data with v | fields
    · cases v <;> first | exact absurd rfl hu | exact absurd rfl hn | exact ⟨_, rfl⟩
    · exact ⟨_, rfl⟩
  · rintro nullish (rfl | rfl) <;> exact ⟨rfl, rfl, rfl⟩

/-- An instance of the amended C14: the payload `5`, which is not an object. -/
theorem no_error_unless_nullish_witness :
    (∃ res, handle sampleState (.join "A" .undefined) = .ok res) ∧
      (∃ res, handle sampleState (.disconnect "A") = .ok res) ∧
      (∃ out, handle sampleState (.offer "A" (.val (.num 5))) = .ok (sampleState, out)) ∧
      (∃ out, handle sampleState (.answer "A" (.val (.num 5))) = .ok (sampleState, out)) ∧
      (∃ out, handle sampleState (.ice_candidate "A" (.val (.num 5))) =
        .ok (sampleState, out)) ∧
      (∀ nullish : Data, nullish = .val .undefined ∨ nullish = .val .null →
        handle sampleState (.offer "A" nullish) = .error .typeError ∧
        handle sampleState (.answer "A" nullish) = .error .typeError ∧
        handle sampleState (.ice_candidate "A" nullish) = .error .typeError) :=
  no_error_unless_nullish sampleState "A" .undefined (.val (.num 5)) (by decide) (by decide)

/-- C15, relay events are pure routing: in every state, for every sender and
every payload, whenever an `offer`, `answer` or `ice_candidate` handler
returns, the state after it, the `rooms` table included, is the state before
it; and the handler does return for every payload object, whatever room id it
names. -/
theorem relay_is_pure_routing (s : State) (p : SocketId) (data : Data)
    (fields : List (String × JsVal)) :
    (∀ res, handle s (.offer p data) = .ok res → res.1 = s ∧ res.1.rooms = s.rooms) ∧
      (∀ res, handle s (.answer p data) = .ok res → res.1 = s ∧ res.1.rooms = s.rooms) ∧
      (∀ res, handle s (.ice_candidate p data) = .ok res → res.1 = s ∧ res.1.rooms = s.rooms) ∧
      (∃ out, handle s (.offer p (.obj fields)) = .ok (s, out)) ∧
      (∃ out, handle s (.answer p (.obj fields)) = .ok (s, out)) ∧
      (∃ out, handle s (.ice_candidate p (.obj fields)) = .ok (s, out)) := by
  refine ⟨?_, ?_, ?_, ⟨_, rfl⟩, ⟨_, rfl⟩, ⟨_, rfl⟩⟩
  · intro res h
    have := onOffer_state h
    exact ⟨this, by rw [this]⟩
  · intro res h
    have := onAnswer_state h
    exact ⟨this, by rw [this]⟩
  · intro res h
    have := onIceCandidate_state h
    exact ⟨this, by rw [this]⟩

/-- C16, the two membership records stay in sync: in every reachable state and
for every room id `r`, a socket is subscribed to transport room `r` by
`socket.join` exactly when it is in the member set that `rooms` records for
`r`, and the connected sockets so subscribed to `r` are that member set, which
is empty when `r` is absent.  This leaves aside the room the transport names
after each socket's own id; counting it, the connected sockets in transport
room `r` are the members of `r` and the connected socket whose id is `r`. -/
theorem records_in_sync (s : State) (h : Reachable s) :
    (∀ r q, (r, q) ∈ s.subs ↔ q ∈ s.members r) ∧
      (∀ r, joinedRoom s r = s.members r) ∧
      (∀ r, MapData.has s.rooms r = false → joinedRoom s r = ∅) ∧
      (∀ r, inRoom s r = s.members r ∪ ownRoom s r) := by
  have hinv := inv_of_reachable h
  refine ⟨hinv.sync, joinedRoom_eq_members hinv, ?_, inRoom_eq_members hinv⟩
  intro r hr
  rw [joinedRoom_eq_members hinv, members_of_absent hr]

/-- An instance of C16: the state after `sampleEvents`. -/
theorem records_in_sync_witness :
    Reachable sampleState ∧
      ((∀ r q, (r, q) ∈ sampleState.subs ↔ q ∈ sampleState.members r) ∧
        (∀ r, joinedRoom sampleState r = sampleState.members r) ∧
        (∀ r, MapData.has sampleState.rooms r = false → joinedRoom sampleState r = ∅) ∧
        (∀ r, inRoom sampleState r = sampleState.members r ∪ ownRoom sampleState r)) :=
  ⟨sampleState_reachable, records_in_sync sampleState sampleState_reachable⟩

/-! ## Algebra of `join` -/

theorem MapData.mem_set_of_ne {m : MapData} {k k2 : RoomId} (v v2 : Clients) (h : k2 ≠ k) :
    some (k2, v2) ∈ MapData.set m k v ↔ some (k2, v2) ∈ m := by
  induction m with
  | nil => simp [MapData.set, h]
  | cons e es ih =>
    rcases e with _ | ⟨k1, v1⟩
    · simp [MapData.set, ih]
    · by_cases hk : k1 = k
      · subst hk
        simp [MapData.set, h, Ne.symm h]
      · simp [MapData.set, hk, ih]

/-- `rooms.get` reads the table: the first of its records with the key. -/
theorem MapData.get_eq_entries (m : MapData) (k : RoomId) :
    MapData.get m k =
      (MapData.entries m).findSome? (fun e => if e.1 = k then some e.2 else none) := by
  induction m with
  | nil => rfl
  | cons e es ih =>
    rcases e with _ | ⟨k1, v1⟩
    · simpa [MapData.get, MapData.entries] using ih
    · by_cases hk : k1 = k
      · simp [MapData.get, MapData.entries, hk]
      · simp [MapData.get, MapData.entries, hk, ih]

theorem MapData.map_leaveEntry_of_not_mem {p : SocketId} {m : MapData}
    (hno : ∀ k v, some (k, v) ∈ m → p ∉ v) : m.map (leaveEntry p) = m := by
  induction m with
  | nil => rfl
  | cons e es ih =>
    have ih2 := ih (fun k v hmem => hno k v (List.mem_cons_of_mem _ hmem))
    rcases e with _ | ⟨k1, v1⟩
    · simp [leaveEntry, ih2]
    · rw [List.map_cons, leaveEntry_kept (hno k1 v1 (List.mem_cons_self _ _)), ih2]

/-- Adding `p` to room `r` and then treating every record by the `disconnect`
callback gives back the table, when `p` was in no record and no record held
an empty set. -/
theorem MapData.entries_join_leave {p : SocketId} {m : MapData} (r : RoomId)
    (hno : ∀ k v, some (k, v) ∈ m → p ∉ v) (hne : ∀ k v, some (k, v) ∈ m → v.card ≠ 0) :
    MapData.entries
        ((MapData.set m r (insert p ((MapData.get m r).getD ∅))).map (leaveEntry p)) =
      MapData.entries m := by
  induction m with
  | nil =>
    have hcard : ((insert p (∅ : Clients)).erase p).card = 0 := by simp
    simp only [MapData.get, Option.getD_none, MapData.set, List.map_cons, List.map_nil,
      leaveEntry_removed (Finset.mem_insert_self p ∅) hcard, MapData.entries]
  | cons e es ih =>
    have hno2 : ∀ k v, some (k, v) ∈ es → p ∉ v :=
      fun k v hmem => hno k v (List.mem_cons_of_mem _ hmem)
    have hne2 : ∀ k v, some (k, v) ∈ es → v.card ≠ 0 :=
      fun k v hmem => hne k v (List.mem_cons_of_mem _ hmem)
    rcases e with _ | ⟨k1, v1⟩
    · simpa [MapData.get, MapData.set, leaveEntry, MapData.entries] using ih hno2 hne2
    · have hp1 : p ∉ v1 := hno k1 v1 (List.mem_cons_self _ _)
      have hc1 : v1.card ≠ 0 := hne k1 v1 (List.mem_cons_self _ _)
      by_cases hk : k1 = r
      · subst hk
        have herase : (insert p v1).erase p = v1 := Finset.erase_insert hp1
        have hcard : ¬ ((insert p v1).erase p).card = 0 := by rwa [herase]
        simp only [MapData.get, if_true, Option.getD_some, MapData.set, List.map_cons,
          leaveEntry_shrunk (Finset.mem_insert_self p v1) hcard, herase, MapData.entries,
          MapData.map_leaveEntry_of_not_mem hno2]
      · simp only [MapData.get, hk, if_false, MapData.set, List.map_cons,
          leaveEntry_kept hp1, MapData.entries, ih hno2 hne2]

/-- C17, join is idempotent: in every state, for every room id `r` and every
socket `p`, handling `join` of `r` from `p` a second time right after the
first leaves the state of the first, the `rooms` table included, whether the
second join is accepted or rejected with `room_full`; the member count of `r`
does not grow. -/
theorem join_idempotent (s : State) (p : SocketId) (r : RoomId) :
    ∃ s1 out1 s2 out2, handle s (.join p r) = .ok (s1, out1) ∧
      handle s1 (.join p r) = .ok (s2, out2) ∧ s2 = s1 ∧ s2.rooms = s1.rooms ∧
      (s2.members r).card = (s1.members r).card := by
  have key : (onJoin (onJoin s p r).1 p r).1 = (onJoin s p r).1 := by
    by_cases hfull : MapData.has s.rooms r = true ∧ MAX_ROOM_SIZE ≤ (s.members r).card
    · rw [onJoin_full hfull.1 hfull.2]
      simp only
      rw [onJoin_full hfull.1 hfull.2]
    · rw [onJoin_accept hfull]
      simp only
      by_cases hfull2 : MapData.has (State.rooms ⟨MapData.set s.rooms r (insert p (s.members r)),
          s.sockets, insert (r, p) s.subs⟩) r = true ∧
          MAX_ROOM_SIZE ≤ (State.members ⟨MapData.set s.rooms r (insert p (s.members r)),
            s.sockets, insert (r, p) s.subs⟩ r).card
      · rw [onJoin_full hfull2.1 hfull2.2]
      · rw [onJoin_accept hfull2]
        simp only [members_set, if_true, MapData.set_set, Finset.insert_idem]
  refine ⟨(onJoin s p r).1, (onJoin s p r).2, (onJoin (onJoin s p r).1 p r).1,
    (onJoin (onJoin s p r).1 p r).2, rfl, rfl, key, ?_, ?_⟩
  · rw [key]
  · rw [key]

/-- C18, join then disconnect is a round trip: in every reachable state in
which the connected socket `p` is a member of no room, and for every room id
`r`, the `join` of `r` from `p` and then the disconnection of `p` are both
handled and leave the table of `rooms` as it was: the same records in the same
order, hence the same room ids with the same member sets, whether the join was
accepted into an existing room, created the room or was rejected. -/
theorem join_disconnect_round_trip (s : State) (h : Reachable s) (p : SocketId)
    (hp : p ∈ s.sockets) (hno : ∀ k, p ∉ s.members k) (r : RoomId) :
    ∃ s1 out1 s2 out2, step s (.join p r) = some (s1, out1) ∧
      step s1 (.disconnect p) = some (s2, out2) ∧
      MapData.entries s2.rooms = MapData.entries s.rooms ∧
      (∀ k, MapData.get s2.rooms k = MapData.get s.rooms k) ∧
      (∀ k, s2.members k = s.members k) := by
  have hinv := inv_of_reachable h
  have hinv1 := inv_onJoin hinv hp r
  have hp1 : p ∈ (onJoin s p r).1.sockets := by
    by_cases hfull : MapData.has s.rooms r = true ∧ MAX_ROOM_SIZE ≤ (s.members r).card
    · rw [onJoin_full hfull.1 hfull.2]
      exact hp
    · rw [onJoin_accept hfull]
      exact hp
  have hrec : ∀ k v, some (k, v) ∈ s.rooms → p ∉ v := by
    intro k v hmem hpv
    have hget := MapData.get_of_mem hinv.wf hmem
    exact hno k (by simpa [State.members, hget] using hpv)
  have hcard : ∀ k v, some (k, v) ∈ s.rooms → v.card ≠ 0 := by
    intro k v hmem
    have := (hinv.size k v hmem).1
    omega
  have hentries : MapData.entries ((onJoin s p r).1.rooms.map (leaveEntry p)) =
      MapData.entries s.rooms := by
    by_cases hfull : MapData.has s.rooms r = true ∧ MAX_ROOM_SIZE ≤ (s.members r).card
    · rw [onJoin_full hfull.1 hfull.2]
      simp only
      rw [MapData.map_leaveEntry_of_not_mem hrec]
    · rw [onJoin_accept hfull]
      exact MapData.entries_join_leave r hrec hcard
  have hget : ∀ k, MapData.get ((onJoin s p r).1.rooms.map (leaveEntry p)) k =
      MapData.get s.rooms k := by
    intro k
    rw [MapData.get_eq_entries, hentries, ← MapData.get_eq_entries]
  refine ⟨(onJoin s p r).1, (onJoin s p r).2, _, _, step_join hp r,
    step_disconnect hinv1 hp1, hentries, hget, ?_⟩
  intro k
  simp only [State.members, hget k]

/-- An instance of C18: `C`, in no room after `sampleEvents`, joins the absent
room `"z"` and disconnects. -/
theorem join_disconnect_round_trip_witness :
    Reachable sampleState ∧ "C" ∈ sampleState.sockets ∧
      (∀ k, "C" ∉ sampleState.members k) ∧
      ∃ s1 out1 s2 out2, step sampleState (.join "C" (.str "z")) = some (s1, out1) ∧
        step s1 (.disconnect "C") = some (s2, out2) ∧
        MapData.entries s2.rooms = MapData.entries sampleState.rooms ∧
        (∀ k, MapData.get s2.rooms k = MapData.get sampleState.rooms k) ∧
        (∀ k, s2.members k = sampleState.members k) :=
  ⟨sampleState_reachable, by decide, sampleState_C_member_of_none,
    join_disconnect_round_trip sampleState sampleState_reachable "C" (by decide)
      sampleState_C_member_of_none (.str "z")⟩

/-- C19, join touches one room only: in every state, for every room id `r` and
every socket `p`, handling `join` of `r` from `p` returns and leaves every
room id other than `r` as it was, present or absent and with the same records;
in `r` every member stays a member and the only socket that can be new is
`p`. -/
theorem join_touches_one_room (s : State) (p : SocketId) (r : RoomId) :
    ∃ s1 out, handle s (.join p r) = .ok (s1, out) ∧
      (∀ k, k ≠ r → MapData.get s1.rooms k = MapData.get s.rooms k) ∧
      (∀ k, k ≠ r → MapData.has s1.rooms k = MapData.has s.rooms k) ∧
      (∀ k v, k ≠ r → (some (k, v) ∈ s1.rooms ↔ some (k, v) ∈ s.rooms)) ∧
      s.members r ⊆ s1.members r ∧ s1.members r ⊆ insert p (s.members r) := by
  refine ⟨(onJoin s p r).1, (onJoin s p r).2, rfl, ?_⟩
  by_cases hfull : MapData.has s.rooms r = true ∧ MAX_ROOM_SIZE ≤ (s.members r).card
  · rw [onJoin_full hfull.1 hfull.2]
    exact ⟨fun _ _ => rfl, fun _ _ => rfl, fun _ _ _ => Iff.rfl, Finset.Subset.refl _,
      Finset.subset_insert _ _⟩
  · rw [onJoin_accept hfull]
    simp only
    refine ⟨fun k hk => MapData.get_set_of_ne _ _ hk, fun k hk => ?_,
      fun k v hk => MapData.mem_set_of_ne _ _ hk, ?_, ?_⟩
    · simp only [MapData.has, MapData.get_set_of_ne _ _ hk]
    · rw [members_set]
      simp only [if_true]
      exact Finset.subset_insert _ _
    · rw [members_set]
      simp only [if_true]
      exact Finset.Subset.refl _

end WalkieTalkie
